import Mathlib

/-
Verification of the graph-node ("Block") core of
src/checkov/common/graph/graph_builder/graph_components/blocks.py:
the attribute flattening codec (`get_inner_attributes`), provenance-tracked
mutation (`update_attribute`), and the export/hash builder
(`get_attribute_dict`, `get_hash`).

Python values stored in block attributes are embedded as the tagged type
`Value`; Python dicts are embedded as insertion-ordered association lists
with Python's assignment semantics (replace in place, else append).
-/

set_option maxHeartbeats 1000000

namespace Checkov

/-- Tagged embedding of a Python value held by a block attribute: scalars
(None, bool, int, str), sequences, and string-keyed mappings.  Mappings are
insertion-ordered association lists, as Python dicts are ordered. -/
inductive Value where
  | vnull : Value
  | vbool : Bool → Value
  | vint : Int → Value
  | vstr : String → Value
  | vlist : List Value → Value
  | vdict : List (String × Value) → Value

/-- Insertion-ordered string-keyed map, the embedding of a Python dict. -/
abbrev AList (α : Type) := List (String × α)

/-- Embedding of Python `d[k] = v`: replace the first entry with key `k`
in place, otherwise append the new entry at the end. -/
def aset {α : Type} (m : AList α) (k : String) (v : α) : AList α :=
  match m with
  | [] => [(k, v)]
  | (k', v') :: rest => if k' = k then (k, v) :: rest else (k', v') :: aset rest k v

/-- Embedding of Python `d.get(k)` / `k in d`: first entry with key `k`. -/
def aget {α : Type} (m : AList α) (k : String) : Option α :=
  match m with
  | [] => none
  | (k', v') :: rest => if k' = k then some v' else aget rest k

/-- Embedding of Python `d.update(other)`: assign each entry of `other`
into `m`, in order. -/
def aupd {α : Type} (m other : AList α) : AList α :=
  other.foldl (fun acc p => aset acc p.1 p.2) m

/-- Embedding of Python `del d[k]`. -/
def aerase {α : Type} (m : AList α) (k : String) : AList α :=
  m.filter (fun p => p.1 ≠ k)

/-- The keys of an association list are pairwise distinct (always true for a
map obtained from a Python dict). -/
def keysNodup {α : Type} (m : AList α) : Prop :=
  (m.map Prod.fst).Nodup

/-- Decimal digit character. -/
def digitChar (n : Nat) : Char :=
  match n with
  | 0 => '0' | 1 => '1' | 2 => '2' | 3 => '3' | 4 => '4'
  | 5 => '5' | 6 => '6' | 7 => '7' | 8 => '8' | _ => '9'

/-- Decimal digits of `n`, with explicit fuel so that the recursion is
structural and kernel-reducible. -/
def natToChars (fuel n : Nat) : List Char :=
  match fuel with
  | 0 => []
  | fuel + 1 => if n < 10 then [digitChar n] else natToChars fuel (n / 10) ++ [digitChar (n % 10)]

/-- Embedding of Python `str(i)` for a non-negative index. -/
def natToString (n : Nat) : String :=
  ⟨natToChars (n + 1) n⟩

/-- Embedding of Python `s.split(sep)` for a single-character separator,
at the level of character lists.  `split [] = [[]]`, matching Python's
`"".split(".") == [""]`. -/
def splitOnChar (c : Char) : List Char → List (List Char)
  | [] => [[]]
  | x :: xs =>
    let r := splitOnChar c xs
    if x = c then [] :: r
    else
      match r with
      | [] => [[x]]
      | h :: t => (x :: h) :: t

/-- Embedding of Python `attribute_key.split(".")`. -/
def splitDot (s : String) : List String :=
  (splitOnChar '.' s.data).map (fun l => ⟨l⟩)

/-- Join character lists with a separator character (inverse of
`splitOnChar`). -/
def joinChar (c : Char) : List (List Char) → List Char
  | [] => []
  | [x] => x
  | x :: xs => x ++ c :: joinChar c xs

/-- Modelled from the spec: the external "string-join helper that trims a
given number of trailing dot-separated segments"
(`checkov.common.graph.graph_builder.utils.join_trimmed_strings`, whose
source is not under `src/`): join all but the last `num_to_trim` segments
with the separator. -/
def join_trimmed_strings (char_to_join : Char) (str_lst : List String) (num_to_trim : Nat) : String :=
  ⟨joinChar char_to_join ((str_lst.take (str_lst.length - num_to_trim)).map String.data)⟩

mutual
/-- Deep removal of empty-string map keys: the residue that
`get_inner_attributes` leaves both in the caller-supplied nested value and
in the reconstructed placeholder it stores under the root key.  Written
from the spec's words: map entries whose key is the empty string are
removed; everything else (including empty sequences) is kept as-is. -/
def pruneDeep : Value → Value
  | Value.vlist l => Value.vlist (pruneList l)
  | Value.vdict d => Value.vdict (pruneDict d)
  | v => v

/-- `pruneDeep` mapped over the elements of a sequence. -/
def pruneList : List Value → List Value
  | [] => []
  | v :: rest => pruneDeep v :: pruneList rest

/-- `pruneDeep` mapped over a mapping, dropping empty-string keys. -/
def pruneDict : List (String × Value) → List (String × Value)
  | [] => []
  | (k, v) :: rest => if k = "" then pruneDict rest else (k, pruneDeep v) :: pruneDict rest
end

mutual
/-- No mapping anywhere inside the value has an empty-string key. -/
def noEmptyKey : Value → Bool
  | Value.vlist l => noEmptyKeyList l
  | Value.vdict d => noEmptyKeyDict d
  | _ => true

/-- `noEmptyKey` over the elements of a sequence. -/
def noEmptyKeyList : List Value → Bool
  | [] => true
  | v :: rest => noEmptyKey v && noEmptyKeyList rest

/-- `noEmptyKey` over the entries of a mapping. -/
def noEmptyKeyDict : List (String × Value) → Bool
  | [] => true
  | (k, v) :: rest => !(k = "") && noEmptyKey v && noEmptyKeyDict rest
end

/-- Insert a string into a `<`-sorted list of strings. -/
def insertStr (s : String) : List String → List String
  | [] => [s]
  | x :: xs => if x < s then x :: insertStr s xs else s :: x :: xs

/-- Embedding of Python `sorted(keys)` for distinct string keys. -/
def sortStrings (l : List String) : List String :=
  l.foldr insertStr []

/-- Insert a key-value pair into a list of pairs sorted by key. -/
def insertPair {α : Type} (p : String × α) : List (String × α) → List (String × α)
  | [] => [p]
  | x :: xs => if x.1 < p.1 then x :: insertPair p xs else p :: x :: xs

/-- Embedding of Python `dict(sorted(d.items()))` for distinct keys. -/
def sortPairs {α : Type} (l : List (String × α)) : List (String × α) :=
  l.foldr insertPair []

/-- The `[None] * len(attribute_value)` placeholder list. -/
def listNulls (l : List Value) : List Value :=
  l.map (fun _ => Value.vnull)

mutual
/-- Embedding of `Block.get_inner_attributes` (blocks.py lines 167-193).
Since the Python code mutates the caller-supplied `attribute_value`
(deleting empty-string map keys), the embedding returns both the flat
mapping `inner_attributes` and the value as it stands after the call.
The unused `strip_list` parameter of the Python classmethod is omitted. -/
def get_inner_attributes (attribute_key : String) (attribute_value : Value) : AList Value × Value :=
  match attribute_value with
  | Value.vlist l =>
      let r := giaList attribute_key 0 [(attribute_key, Value.vlist (listNulls l))] l
      (aset r.1 attribute_key (Value.vlist r.2.1), Value.vlist r.2.2)
  | Value.vdict d =>
      let r := giaDict attribute_key [(attribute_key, Value.vdict [])] d
      (aset r.1 attribute_key (Value.vdict r.2.1), Value.vdict r.2.2)
  | v => ([(attribute_key, v)], v)

/-- The `for key in iterator` loop of `get_inner_attributes` for a sequence
value: threads the accumulated `inner_attributes` (initially holding the
placeholder at the root key) and returns the final flat map, the filled
placeholder slots, and the elements after mutation. -/
def giaList (attribute_key : String) (i : Nat) (flat : AList Value) :
    List Value → AList Value × List Value × List Value
  | [] => (flat, [], [])
  | v :: rest =>
      let inner_key := attribute_key ++ "." ++ natToString i
      let r := get_inner_attributes inner_key v
      let flat1 := aupd flat r.1
      let root := (aget flat1 inner_key).getD Value.vnull
      let rr := giaList attribute_key (i + 1) flat1 rest
      (rr.1, root :: rr.2.1, r.2 :: rr.2.2)

/-- The `for key in iterator` loop of `get_inner_attributes` for a mapping
value: an entry with the empty-string key is deleted from the mutated value
(`del attribute_value[key]`) and contributes nothing to the flat map or the
placeholder. -/
def giaDict (attribute_key : String) (flat : AList Value) :
    List (String × Value) → AList Value × List (String × Value) × List (String × Value)
  | [] => (flat, [], [])
  | (key, v) :: rest =>
      if key = "" then giaDict attribute_key flat rest
      else
        let inner_key := attribute_key ++ "." ++ key
        let r := get_inner_attributes inner_key v
        let flat1 := aupd flat r.1
        let root := (aget flat1 inner_key).getD Value.vnull
        let rr := giaDict attribute_key flat1 rest
        (rr.1, (key, root) :: rr.2.1, (key, r.2) :: rr.2.2)
end

/-- Modelled from the spec: one hop of a provenance chain, the
`BreadcrumbMetadata(vertex_id, attribute_at_dest)` pair from
`breadcrumb_metadata.py` (not under `src/`): "an immutable pair
(origin-node-identifier, origin-attribute-path-or-none)". -/
structure BreadcrumbMetadata where
  vertex_id : Option Int
  attribute_at_dest : Option String
deriving DecidableEq

/-- Modelled from the spec: the reserved export attribute key names (the
`CustomAttributes` enumeration from `attribute_names.py`, not under
`src/`): "block name, block kind, file path, config, label, id, source,
hash, rendering-breadcrumbs, resource-type, module-dependency,
module-dependency-index". -/
def BLOCK_NAME : String := "block_name_"

/-- Modelled from the spec: see `BLOCK_NAME`. -/
def BLOCK_TYPE : String := "block_type_"

/-- Modelled from the spec: see `BLOCK_NAME`. -/
def FILE_PATH : String := "file_path_"

/-- Modelled from the spec: see `BLOCK_NAME`. -/
def CONFIG : String := "config_"

/-- Modelled from the spec: see `BLOCK_NAME`. -/
def LABEL : String := "label_"

/-- Modelled from the spec: see `BLOCK_NAME`. -/
def ID : String := "id_"

/-- Modelled from the spec: see `BLOCK_NAME`. -/
def SOURCE : String := "source_"

/-- Modelled from the spec: see `BLOCK_NAME`. -/
def HASH : String := "hash"

/-- Modelled from the spec: see `BLOCK_NAME`. -/
def RENDERING_BREADCRUMBS : String := "rendering_breadcrumbs_"

/-- Modelled from the spec: see `BLOCK_NAME`. -/
def RESOURCE_TYPE : String := "resource_type"

/-- Modelled from the spec: see `BLOCK_NAME`. -/
def MODULE_DEPENDENCY : String := "module_dependency_"

/-- Modelled from the spec: see `BLOCK_NAME`. -/
def MODULE_DEPENDENCY_NUM : String := "module_dependency_num_"

/-- Modelled from the spec: the data-source member of the closed node-kind
enumeration (`BlockType.DATA` from `block_types.py`, not under `src/`). -/
def BlockType_DATA : String := "data"

mutual
/-- Canonical serialization of a `Value`, used by the modelled hashing
primitive. -/
def serializeValue : Value → String
  | Value.vnull => "N"
  | Value.vbool b => if b then "T" else "F"
  | Value.vint n =>
      match n with
      | Int.ofNat m => "i" ++ natToString m
      | Int.negSucc m => "i-" ++ natToString (m + 1)
  | Value.vstr s => "s(" ++ s ++ ")"
  | Value.vlist l => "[" ++ serializeList l ++ "]"
  | Value.vdict d => "\x7b" ++ serializeDict d ++ "\x7d"

/-- Canonical serialization of a sequence. -/
def serializeList : List Value → String
  | [] => ""
  | v :: rest => serializeValue v ++ "," ++ serializeList rest

/-- Canonical serialization of a mapping. -/
def serializeDict : List (String × Value) → String
  | [] => ""
  | (k, v) :: rest => "k(" ++ k ++ "):" ++ serializeValue v ++ "," ++ serializeDict rest
end

/-- Modelled from the spec: the external hashing primitive
(`checkov.common.graph.graph_builder.utils.calculate_hash`, not under
`src/`): "a hashing primitive that takes an arbitrary canonical mapping and
returns a deterministic string digest", modelled as a deterministic
canonical serialization of the mapping. -/
def calculate_hash (m : AList Value) : String :=
  "h:" ++ serializeDict m

/-- Embedding of the state of a `Block` instance.  The optional
module-linkage fields model the `hasattr`-guarded dynamic attributes
`module_dependency` / `module_dependency_num`. -/
structure Block where
  name : String
  config : AList Value
  path : String
  block_type : String
  attributes : AList Value
  id : String
  source : String
  changed_attributes : AList (List BreadcrumbMetadata)
  breadcrumbs : AList Value
  module_dependency : Option String
  module_dependency_num : Option Int

/-- Whether a constructor-time attribute value is flattened by
`_extract_inner_attributes`: a dict, or a non-empty list whose first
element is a dict. -/
def extract_candidate : Value → Bool
  | Value.vdict _ => true
  | Value.vlist (Value.vdict _ :: _) => true
  | _ => false

/-- Embedding of `Block._extract_inner_attributes` (lines 41-52), returning
the flattened entries to add together with the attribute entries as they
stand after the in-place mutation performed by `get_inner_attributes`. -/
def extract_inner_attributes : AList Value → AList Value × AList Value
  | [] => ([], [])
  | (attribute_key, attribute_value) :: rest =>
      if extract_candidate attribute_value then
        let r := get_inner_attributes attribute_key attribute_value
        let rr := extract_inner_attributes rest
        (aupd r.1 rr.1, (attribute_key, r.2) :: rr.2)
      else
        let rr := extract_inner_attributes rest
        (rr.1, (attribute_key, attribute_value) :: rr.2)

/-- Embedding of `Block.__init__` (lines 11-39): stores the fields (the
config deep-copy is value semantics here) and merges the flattened inner
attributes into `attributes`. -/
def mk_block (name : String) (config : AList Value) (path : String) (block_type : String)
    (attributes : AList Value) (id : String := "") (source : String := "") : Block :=
  let r := extract_inner_attributes attributes
  { name := name, config := config, path := path, block_type := block_type,
    attributes := aupd r.2 r.1, id := id, source := source,
    changed_attributes := [], breadcrumbs := [],
    module_dependency := none, module_dependency_num := none }

/-- Embedding of `Block._should_add_previous_breadcrumbs` (lines 144-147):
`not previous_breadcrumbs or previous_breadcrumbs[-1].vertex_id != change_origin_id`. -/
def _should_add_previous_breadcrumbs (change_origin_id : Option Int)
    (previous_breadcrumbs : List BreadcrumbMetadata) (attribute_at_dest : Option String) : Bool :=
  if previous_breadcrumbs.isEmpty then true
  else
    match previous_breadcrumbs.getLast? with
    | some m => decide (m.vertex_id ≠ change_origin_id)
    | none => true

/-- Embedding of `Block._should_set_changed_attributes` (lines 149-151):
constantly true. -/
def _should_set_changed_attributes (change_origin_id : Option Int)
    (attribute_at_dest : Option String) : Bool :=
  true

/-- The numbered-attribute writes of `update_attribute` (lines 122-124):
`self.attributes[f"{attribute_key}.{idx}"] = value` for each element of a
list value. -/
def numberedWrites (attribute_key : String) (i : Nat) (m : AList Value) :
    List Value → AList Value
  | [] => m
  | v :: rest => numberedWrites attribute_key (i + 1) (aset m (attribute_key ++ "." ++ natToString i) v) rest

/-- Embedding of the `for i in range(len(attribute_key_parts))` walk of
`update_attribute` (lines 132-142), with the early return when
`transform_step` finds a trimmed-off trailing segment of `"1"` or `"2"`.
`fuel` counts the remaining loop iterations (initially `parts.length`, so
the body runs once per index exactly as `range(len(parts))` does) and `i`
is the current index. -/
def update_walk (parts : List String) (transform_step : Bool)
    (previous_breadcrumbs : List BreadcrumbMetadata) (change_origin_id : Option Int)
    (attribute_at_dest : Option String) :
    Nat → Nat → Value → AList Value → AList (List BreadcrumbMetadata) →
    AList Value × AList (List BreadcrumbMetadata)
  | 0, _, _, attrs, changed => (attrs, changed)
  | fuel + 1, i, attribute_value, attrs, changed =>
    let key := join_trimmed_strings '.' parts i
    if key.data.contains '.' then
      let attrs1 := aset attrs key attribute_value
      let end_key_part := parts.getD (parts.length - 1 - i) ""
      if transform_step && (end_key_part == "1" || end_key_part == "2") then
        (attrs1, changed)
      else
        let changed1 :=
          if _should_set_changed_attributes change_origin_id attribute_at_dest then
            aset changed key previous_breadcrumbs
          else changed
        update_walk parts transform_step previous_breadcrumbs change_origin_id attribute_at_dest
          fuel (i + 1) (Value.vdict [(end_key_part, attribute_value)]) attrs1 changed1
    else
      update_walk parts transform_step previous_breadcrumbs change_origin_id attribute_at_dest
        fuel (i + 1) attribute_value attrs changed

/-- Embedding of `Block.update_attribute` (lines 109-142).  The Python
method mutates `previous_breadcrumbs` in place (possibly appending one
record); the embedding returns the updated block together with the chain
as it stands after the call. -/
def update_attribute (b : Block) (attribute_key : String) (attribute_value : Value)
    (change_origin_id : Option Int) (previous_breadcrumbs : List BreadcrumbMetadata)
    (attribute_at_dest : Option String) (transform_step : Bool := false) :
    Block × List BreadcrumbMetadata :=
  let previous_breadcrumbs :=
    if _should_add_previous_breadcrumbs change_origin_id previous_breadcrumbs attribute_at_dest then
      previous_breadcrumbs ++ [⟨change_origin_id, attribute_at_dest⟩]
    else previous_breadcrumbs
  let attrs :=
    match attribute_value with
    | Value.vlist l => numberedWrites attribute_key 0 b.attributes l
    | _ => b.attributes
  let attribute_key_parts := splitDot attribute_key
  if attribute_key_parts.length = 1 then
    let attrs := aset attrs attribute_key attribute_value
    let changed :=
      if _should_set_changed_attributes change_origin_id attribute_at_dest then
        aset b.changed_attributes attribute_key previous_breadcrumbs
      else b.changed_attributes
    ({ b with attributes := attrs, changed_attributes := changed }, previous_breadcrumbs)
  else
    let r := update_walk attribute_key_parts transform_step previous_breadcrumbs
      change_origin_id attribute_at_dest attribute_key_parts.length 0 attribute_value attrs
      b.changed_attributes
    ({ b with attributes := r.1, changed_attributes := r.2 }, previous_breadcrumbs)

/-- The singleton-sequence unwrapping performed at the start of each
`get_origin_attributes` iteration (lines 93-94). -/
def unwrap_singleton : Value → Value
  | Value.vlist [x] => x
  | v => v

/-- One iteration of the `get_origin_attributes` loop (lines 91-103), for
the stored entry `(attribute_key, v)`: returns the updated
`base_attributes` and the stored value as it stands afterwards (mutated in
place by `get_inner_attributes` when the codec runs on it). -/
def origin_entry (attribute_key : String) (v : Value) (base : AList Value) :
    AList Value × Value :=
  let attribute_value := unwrap_singleton v
  if attribute_key = "self" then (aset base "self_" attribute_value, v)
  else
    match attribute_value with
    | Value.vlist _ | Value.vdict _ =>
      let g := get_inner_attributes attribute_key attribute_value
      let newV :=
        match v with
        | Value.vlist [_] => Value.vlist [g.2]
        | _ => g.2
      (aupd base g.1, newV)
    | _ => (aset base attribute_key attribute_value, v)

/-- Embedding of `Block.get_origin_attributes` (lines 90-103).  The Python
method mutates `base_attributes` in place and, through
`get_inner_attributes`, the stored attribute values; the embedding returns
the updated `base_attributes` together with the attribute entries as they
stand after the call. -/
def get_origin_attributes : AList Value → AList Value → AList Value × AList Value
  | [], base => (base, [])
  | (attribute_key, v) :: rest, base =>
      let s := origin_entry attribute_key v base
      let r := get_origin_attributes rest s.1
      (r.1, (attribute_key, s.2) :: r.2)

/-- Embedding of `Block.get_base_attributes` (lines 156-165); the label is
`str(self) = f"{self.block_type}: {self.name}"`. -/
def get_base_attributes (b : Block) : AList Value :=
  [(BLOCK_NAME, Value.vstr b.name),
   (BLOCK_TYPE, Value.vstr b.block_type),
   (FILE_PATH, Value.vstr b.path),
   (CONFIG, Value.vdict b.config),
   (LABEL, Value.vstr (b.block_type ++ ": " ++ b.name)),
   (ID, Value.vstr b.id),
   (SOURCE, Value.vstr b.source)]

/-- The part of `Block.get_attribute_dict` up to and including the
breadcrumbs merge (lines 63-76): base metadata, origin attributes,
module-linkage fields, the transient `"changed_attributes"` listing, and
the sorted breadcrumbs.  This is exactly the mapping over which the
content hash is computed when hashing is requested.  Returns the mapping
together with the attribute entries after the codec's mutation. -/
def export_stage1 (b : Block) : AList Value × AList Value :=
  let base := get_base_attributes b
  let r := get_origin_attributes b.attributes base
  let base := r.1
  let base :=
    match b.module_dependency, b.module_dependency_num with
    | some md, some mdn =>
        aset (aset base MODULE_DEPENDENCY (Value.vstr md)) MODULE_DEPENDENCY_NUM (Value.vint mdn)
    | _, _ => base
  let base :=
    if b.changed_attributes.isEmpty then base
    else aset base "changed_attributes"
      (Value.vlist ((sortStrings (b.changed_attributes.map Prod.fst)).map Value.vstr))
  let base :=
    if b.breadcrumbs.isEmpty then base
    else aset base RENDERING_BREADCRUMBS (Value.vdict (sortPairs b.breadcrumbs))
  (base, r.2)

/-- Embedding of `Block.get_attribute_dict` (lines 57-88).  The Python
method's only state mutation is the in-place empty-string-key deletion
performed by the codec on stored attribute values; the embedding returns
the exported dictionary together with the block as it stands after the
call. -/
def get_attribute_dict (b : Block) (add_hash : Bool := true) : AList Value × Block :=
  let r := export_stage1 b
  let base := r.1
  let base := if add_hash then aset base HASH (Value.vstr (calculate_hash base)) else base
  let base :=
    if b.block_type = BlockType_DATA then
      aset base RESOURCE_TYPE (Value.vstr ("data." ++ (splitDot b.id).headD ""))
    else base
  let base :=
    if (aget base "changed_attributes").isSome then aerase base "changed_attributes" else base
  (base, { b with attributes := r.2 })

/-- Embedding of `Block.get_hash` (lines 105-107):
`self.get_attribute_dict().get(CustomAttributes.HASH, "")`. -/
def get_hash (b : Block) : Value :=
  (aget (get_attribute_dict b true).1 HASH).getD (Value.vstr "")

/-- Embedding of `Block.get_export_data` (lines 153-154). -/
def get_export_data (b : Block) : AList Value :=
  [("type", Value.vstr b.block_type), ("name", Value.vstr b.name), ("path", Value.vstr b.path)]

/-- Projection used to observe a block state change without deciding
equality of full values: the top-level keys of the mapping stored under
the given attribute key. -/
def attr_dict_keys (b : Block) (k : String) : Option (List String) :=
  (aget b.attributes k).map (fun v => match v with | Value.vdict d => d.map Prod.fst | _ => [])

/-- `key` is a strict dotted descendant of the root key `k`. -/
def isSubkeyOf (k key : String) : Prop :=
  ∃ t, t ≠ "" ∧ key = k ++ "." ++ t

/-- The residue `get_attribute_dict` leaves in the stored attributes: every
value is deeply empty-key-pruned except the one stored under `"self"`,
which the export path never feeds to the codec. -/
def pruneAttrs : AList Value → AList Value
  | [] => []
  | (k, v) :: rest => (k, if k = "self" then v else pruneDeep v) :: pruneAttrs rest

/-- The successively wrapped value written by the dotted-path walk of
`update_attribute`: after `m` iterations the value written is the original
wrapped in `m` single-entry maps keyed by the trimmed-off trailing
segments. -/
def iterWrap (parts : List String) (v : Value) : Nat → Value
  | 0 => v
  | m + 1 => Value.vdict [(parts.getD (parts.length - 1 - m) "", iterWrap parts v m)]

/-- The attribute writes performed by the walk from iteration `m` up to and
including the stopping iteration `j`. -/
def writesA (parts : List String) (v : Value) (m j : Nat) : AList Value :=
  (List.range (j + 1 - m)).map
    (fun t => (join_trimmed_strings '.' parts (m + t), iterWrap parts v (m + t)))

/-- The changed-attribute writes performed by the walk from iteration `m`
up to (excluding) the stopping iteration `j`. -/
def writesC (parts : List String) (bc : List BreadcrumbMetadata) (m j : Nat) :
    AList (List BreadcrumbMetadata) :=
  (List.range (j - m)).map (fun t => (join_trimmed_strings '.' parts (m + t), bc))

theorem aget_aset_self {α : Type} (m : AList α) (k : String) (v : α) :
    aget (aset m k v) k = some v := by
  induction m with
  | nil => simp [aset, aget]
  | cons p rest ih =>
      obtain ⟨k', v'⟩ := p
      by_cases h : k' = k <;> simp [aset, aget, h, ih]

theorem aget_aset_ne {α : Type} (m : AList α) (k k' : String) (v : α) (h : k' ≠ k) :
    aget (aset m k v) k' = aget m k' := by
  induction m with
  | nil => simp [aset, aget, Ne.symm h]
  | cons p rest ih =>
      obtain ⟨k₀, v₀⟩ := p
      by_cases h0 : k₀ = k
      · subst h0
        simp [aset, aget, Ne.symm h]
      · by_cases h1 : k₀ = k' <;> simp [aset, aget, h0, h1, ih, h]

theorem mem_keys_aset {α : Type} (m : AList α) (k a : String) (v : α) :
    a ∈ (aset m k v).map Prod.fst ↔ a ∈ m.map Prod.fst ∨ a = k := by
  induction m with
  | nil => simp [aset]
  | cons p rest ih =>
      obtain ⟨k', v'⟩ := p
      by_cases h : k' = k <;> simp [aset, h, ih] <;> tauto

theorem keysNodup_aset {α : Type} {m : AList α} (k : String) (v : α) (h : keysNodup m) :
    keysNodup (aset m k v) := by
  induction m with
  | nil => simp [aset, keysNodup]
  | cons p rest ih =>
      obtain ⟨k', v'⟩ := p
      simp only [keysNodup, List.map_cons, List.nodup_cons] at h
      by_cases hk : k' = k
      · subst hk
        simpa [aset, keysNodup] using h
      · simp only [aset, hk, if_false, keysNodup, List.map_cons, List.nodup_cons]
        refine ⟨fun hmem => ?_, ih h.2⟩
        rcases (mem_keys_aset rest k k' v).1 hmem with h1 | h1
        · exact h.1 h1
        · exact hk h1

theorem keysNodup_aupd {α : Type} (r : AList α) (m : AList α) (h : keysNodup m) :
    keysNodup (aupd m r) := by
  induction r generalizing m with
  | nil => exact h
  | cons p rest ih => exact ih (aset m p.1 p.2) (keysNodup_aset p.1 p.2 h)

theorem aget_eq_none_iff {α : Type} (m : AList α) (k : String) :
    aget m k = none ↔ k ∉ m.map Prod.fst := by
  induction m with
  | nil => simp [aget]
  | cons p rest ih =>
      obtain ⟨k', v'⟩ := p
      by_cases h : k' = k
      · subst h
        simp [aget]
      · simp [aget, h, ih, Ne.symm h]

theorem aget_aupd_of_none {α : Type} (r m : AList α) (k : String) (h : aget r k = none) :
    aget (aupd m r) k = aget m k := by
  induction r generalizing m with
  | nil => rfl
  | cons p rest ih =>
      obtain ⟨k₀, v₀⟩ := p
      by_cases h0 : k₀ = k
      · simp [aget, h0] at h
      · have h' : aget rest k = none := by simpa [aget, h0] using h
        show aget (aupd (aset m k₀ v₀) rest) k = aget m k
        rw [ih (aset m k₀ v₀) h', aget_aset_ne _ _ _ _ (fun hh => h0 hh.symm)]

theorem aget_aupd_of_some {α : Type} (r m : AList α) (k : String) (v : α)
    (hn : keysNodup r) (h : aget r k = some v) :
    aget (aupd m r) k = some v := by
  induction r generalizing m with
  | nil => simp [aget] at h
  | cons p rest ih =>
      obtain ⟨k₀, v₀⟩ := p
      have hn1 : k₀ ∉ rest.map Prod.fst ∧ keysNodup rest := by
        simpa [keysNodup, List.nodup_cons] using hn
      show aget (aupd (aset m k₀ v₀) rest) k = some v
      by_cases h0 : k₀ = k
      · subst h0
        have hv : v₀ = v := by simpa [aget] using h
        subst hv
        have hrest : aget rest k₀ = none := (aget_eq_none_iff rest k₀).2 hn1.1
        rw [aget_aupd_of_none rest _ _ hrest, aget_aset_self]
      · have h' : aget rest k = some v := by simpa [aget, h0] using h
        exact ih _ hn1.2 h'

theorem aget_aerase_self {α : Type} (m : AList α) (k : String) :
    aget (aerase m k) k = none := by
  induction m with
  | nil => rfl
  | cons p rest ih =>
      obtain ⟨k', v'⟩ := p
      by_cases h : k' = k
      · simpa [aerase, List.filter_cons, h] using ih
      · simpa [aerase, List.filter_cons, h, aget] using ih

theorem aget_aerase_ne {α : Type} (m : AList α) (k k' : String) (h : k' ≠ k) :
    aget (aerase m k) k' = aget m k' := by
  induction m with
  | nil => rfl
  | cons p rest ih =>
      obtain ⟨k₀, v₀⟩ := p
      by_cases h0 : k₀ = k
      · have e1 : aerase ((k₀, v₀) :: rest) k = aerase rest k := by
          simp [aerase, List.filter_cons, h0]
        have h2 : k₀ ≠ k' := by rw [h0]; exact Ne.symm h
        rw [e1, ih]
        simp [aget, h2]
      · have e1 : aerase ((k₀, v₀) :: rest) k = (k₀, v₀) :: aerase rest k := by
          simp [aerase, List.filter_cons, h0]
        rw [e1]
        by_cases h1 : k₀ = k' <;> simp [aget, h1, ih]

theorem str_mk_data (s : String) : String.mk s.data = s := by
  cases s
  rfl

theorem natToChars_ne_nil (fuel n : Nat) (h : 0 < fuel) : natToChars fuel n ≠ [] := by
  cases fuel with
  | zero => omega
  | succ f => by_cases h10 : n < 10 <;> simp [natToChars, h10]

theorem natToString_ne_empty (n : Nat) : natToString n ≠ "" := by
  intro h
  have h2 := congrArg String.data h
  simp only [natToString] at h2
  exact natToChars_ne_nil (n + 1) n (by omega) h2

theorem splitOnChar_ne_nil (c : Char) (l : List Char) : splitOnChar c l ≠ [] := by
  cases l with
  | nil => simp [splitOnChar]
  | cons x xs =>
      simp only [splitOnChar]
      by_cases h : x = c
      · simp [h]
      · cases hr : splitOnChar c xs <;> simp [h, hr]

theorem splitOnChar_sep (c : Char) (xs : List Char) :
    splitOnChar c (c :: xs) = [] :: splitOnChar c xs := by
  simp [splitOnChar]

theorem splitOnChar_cons_ne (c x : Char) (xs : List Char) (h : x ≠ c) :
    splitOnChar c (x :: xs) =
      match splitOnChar c xs with
      | [] => [[x]]
      | h₀ :: t => (x :: h₀) :: t := by
  simp [splitOnChar, h]

theorem joinChar_splitOnChar (c : Char) (l : List Char) :
    joinChar c (splitOnChar c l) = l := by
  induction l with
  | nil => rfl
  | cons x xs ih =>
      by_cases h : x = c
      · subst h
        rw [splitOnChar_sep]
        cases hr : splitOnChar x xs with
        | nil => exact absurd hr (splitOnChar_ne_nil x xs)
        | cons a t =>
            have ih' : joinChar x (a :: t) = xs := hr ▸ ih
            simp [joinChar, ih']
      · rw [splitOnChar_cons_ne c x xs h]
        cases hr : splitOnChar c xs with
        | nil => exact absurd hr (splitOnChar_ne_nil c xs)
        | cons a t =>
            have ih' : joinChar c (a :: t) = xs := hr ▸ ih
            cases t with
            | nil =>
                simp only [joinChar] at ih' ⊢
                rw [ih']
            | cons b t' =>
                simp only [joinChar] at ih' ⊢
                rw [List.cons_append, ih']

theorem joinChar_length (c : Char) :
    ∀ ls : List (List Char), ls ≠ [] →
      (joinChar c ls).length + 1 = (ls.map List.length).sum + ls.length
  | [], h => absurd rfl h
  | [x], _ => by simp [joinChar]
  | x :: y :: t, _ => by
      have ih := joinChar_length c (y :: t) (by simp)
      simp only [joinChar, List.map_cons, List.sum_cons, List.length_cons,
        List.length_append] at ih ⊢
      omega

theorem mem_joinChar_of_two (c : Char) (ls : List (List Char)) (h : 2 ≤ ls.length) :
    c ∈ joinChar c ls := by
  match ls, h with
  | x :: y :: rest, _ =>
      simp only [joinChar]
      exact List.mem_append_right _ (List.mem_cons_self _ _)

theorem jt_data (parts : List String) (i : Nat) :
    (join_trimmed_strings '.' parts i).data =
      joinChar '.' ((parts.take (parts.length - i)).map String.data) := rfl

theorem jt_zero (s : String) : join_trimmed_strings '.' (splitDot s) 0 = s := by
  apply String.ext
  rw [jt_data]
  simp only [Nat.sub_zero, List.take_length]
  have e1 : (splitDot s).map String.data = splitOnChar '.' s.data := by
    simp only [splitDot, List.map_map]
    have e2 : (String.data ∘ fun l : List Char => (⟨l⟩ : String)) = id := rfl
    rw [e2, List.map_id]
  rw [e1]
  exact joinChar_splitOnChar '.' s.data

theorem sum_take_le (l : List Nat) (m : Nat) : (l.take m).sum ≤ l.sum := by
  conv_rhs => rw [← List.take_append_drop m l]
  rw [List.sum_append]
  omega

theorem sum_map_take_le (f : String → Nat) (l : List String) (m : Nat) :
    ((l.take m).map f).sum ≤ (l.map f).sum := by
  rw [List.map_take]
  exact sum_take_le (l.map f) m

theorem jt_length (parts : List String) (i : Nat) (h : i < parts.length) :
    (join_trimmed_strings '.' parts i).length + 1 =
      ((parts.take (parts.length - i)).map String.length).sum + (parts.length - i) := by
  have hlen : ((parts.take (parts.length - i)).map String.data).length = parts.length - i := by
    simp only [List.length_map, List.length_take]
    omega
  have hne : (parts.take (parts.length - i)).map String.data ≠ [] := by
    intro hz
    rw [hz] at hlen
    simp only [List.length_nil] at hlen
    omega
  have e1 := joinChar_length '.' ((parts.take (parts.length - i)).map String.data) hne
  have e2 : ((parts.take (parts.length - i)).map String.data).map List.length =
      (parts.take (parts.length - i)).map String.length := by
    rw [List.map_map]
    rfl
  rw [e2, hlen] at e1
  have e3 : (join_trimmed_strings '.' parts i).length =
      (joinChar '.' ((parts.take (parts.length - i)).map String.data)).length := by
    show (join_trimmed_strings '.' parts i).data.length = _
    rw [jt_data]
  omega

theorem jt_length_lt (parts : List String) (i₁ i₂ : Nat) (h1 : i₁ < i₂)
    (h2 : i₂ < parts.length) :
    (join_trimmed_strings '.' parts i₂).length < (join_trimmed_strings '.' parts i₁).length := by
  have e1 := jt_length parts i₁ (by omega)
  have e2 := jt_length parts i₂ h2
  have hsum : ((parts.take (parts.length - i₂)).map String.length).sum ≤
      ((parts.take (parts.length - i₁)).map String.length).sum := by
    have e3 : parts.take (parts.length - i₂) =
        (parts.take (parts.length - i₁)).take (parts.length - i₂) := by
      rw [List.take_take]
      congr 1
      omega
    rw [e3]
    exact sum_map_take_le String.length (parts.take (parts.length - i₁)) _
  omega

theorem jt_ne (parts : List String) (i₁ i₂ : Nat) (h1 : i₁ < i₂) (h2 : i₂ < parts.length) :
    join_trimmed_strings '.' parts i₂ ≠ join_trimmed_strings '.' parts i₁ := by
  intro h
  have h3 := congrArg String.length h
  have h4 := jt_length_lt parts i₁ i₂ h1 h2
  omega

theorem jt_contains_dot (parts : List String) (i : Nat) (h : i + 2 ≤ parts.length) :
    '.' ∈ (join_trimmed_strings '.' parts i).data := by
  rw [jt_data]
  apply mem_joinChar_of_two
  simp [List.length_take]
  omega

theorem subkey_data (k t : String) : (k ++ "." ++ t).data = k.data ++ '.' :: t.data := by
  simp [String.data_append]

theorem dot_mem_subkey (k t : String) : '.' ∈ (k ++ "." ++ t).data := by
  rw [subkey_data]
  simp

theorem no_dot_ne_subkey (s k t : String) (h : '.' ∉ s.data) : s ≠ k ++ "." ++ t := by
  intro he
  exact h (he ▸ dot_mem_subkey k t)

theorem subkey_length (k t : String) : (k ++ "." ++ t).length = k.length + 1 + t.length := by
  simp [String.length_append, show (".").length = 1 from rfl]

theorem subkey_ne_trail (k t : String) (h : t ≠ "") : k ++ "." ++ t ≠ k ++ "." := by
  intro he
  have h2 := congrArg String.length he
  simp only [String.length_append] at h2
  have h3 : t.length = 0 := by omega
  exact h (String.ext (List.length_eq_zero.mp h3))

theorem subkey_assoc (k s t : String) :
    (k ++ "." ++ s) ++ "." ++ t = k ++ "." ++ (s ++ "." ++ t) := by
  apply String.ext
  simp [String.data_append]

theorem subkey_ne_empty (a b : String) : a ++ "." ++ b ≠ "" := by
  intro h
  have h2 := congrArg String.length h
  rw [subkey_length] at h2
  have h3 : ("" : String).length = 0 := rfl
  omega

theorem giaScalarAux (k : String) (v : Value)
    (hs : get_inner_attributes k v = ([(k, v)], v)) (hp : pruneDeep v = v) :
    aget (get_inner_attributes k v).1 k = some (pruneDeep v)
    ∧ (get_inner_attributes k v).2 = pruneDeep v
    ∧ keysNodup (get_inner_attributes k v).1
    ∧ (∀ key, (aget (get_inner_attributes k v).1 key).isSome → key = k ∨ isSubkeyOf k key) := by
  rw [hs, hp]
  refine ⟨by simp [aget], rfl, by simp [keysNodup], ?_⟩
  intro key hk
  by_cases h2 : key = k
  · exact Or.inl h2
  · exfalso
    have h3 : k ≠ key := fun hh => h2 hh.symm
    simp [aget, h3] at hk

mutual
/-- Joint specification of `get_inner_attributes`: the flat map's root entry
holds the reconstructed placeholder, which — like the mutated input value —
equals the input with empty-string map keys deeply removed; the flat map
has pairwise-distinct keys, all of which are the root key or strict dotted
descendants of it. -/
theorem giaSpec : ∀ (k : String) (v : Value),
    aget (get_inner_attributes k v).1 k = some (pruneDeep v)
    ∧ (get_inner_attributes k v).2 = pruneDeep v
    ∧ keysNodup (get_inner_attributes k v).1
    ∧ (∀ key, (aget (get_inner_attributes k v).1 key).isSome → key = k ∨ isSubkeyOf k key)
  | k, Value.vnull => giaScalarAux k Value.vnull rfl rfl
  | k, Value.vbool b => giaScalarAux k (Value.vbool b) rfl rfl
  | k, Value.vint n => giaScalarAux k (Value.vint n) rfl rfl
  | k, Value.vstr s => giaScalarAux k (Value.vstr s) rfl rfl
  | k, Value.vlist l => by
      have hinit : keysNodup ([(k, Value.vlist (listNulls l))] : AList Value) := by
        simp [keysNodup]
      obtain ⟨hnd, hph, hmut, hsh⟩ := giaListSpec k 0 [(k, Value.vlist (listNulls l))] l hinit
      simp only [get_inner_attributes]
      refine ⟨?_, ?_, ?_, ?_⟩
      · rw [aget_aset_self, hph]
        rfl
      · rw [hmut]
        rfl
      · exact keysNodup_aset _ _ hnd
      · intro key hk
        by_cases hkk : key = k
        · exact Or.inl hkk
        · rw [aget_aset_ne _ _ _ _ hkk] at hk
          rcases hsh key with he | hs
          · rw [he] at hk
            by_cases h2 : k = key
            · exact Or.inl h2.symm
            · simp [aget, h2] at hk
          · exact Or.inr hs
  | k, Value.vdict d => by
      have hinit : keysNodup ([(k, Value.vdict [])] : AList Value) := by
        simp [keysNodup]
      obtain ⟨hnd, hph, hmut, hsh⟩ := giaDictSpec k [(k, Value.vdict [])] d hinit
      simp only [get_inner_attributes]
      refine ⟨?_, ?_, ?_, ?_⟩
      · rw [aget_aset_self, hph]
        rfl
      · rw [hmut]
        rfl
      · exact keysNodup_aset _ _ hnd
      · intro key hk
        by_cases hkk : key = k
        · exact Or.inl hkk
        · rw [aget_aset_ne _ _ _ _ hkk] at hk
          rcases hsh key with he | hs
          · rw [he] at hk
            by_cases h2 : k = key
            · exact Or.inl h2.symm
            · simp [aget, h2] at hk
          · exact Or.inr hs

/-- Joint specification of the sequence loop of `get_inner_attributes`. -/
theorem giaListSpec : ∀ (k : String) (i : Nat) (flat : AList Value) (l : List Value),
    keysNodup flat →
    keysNodup (giaList k i flat l).1
    ∧ (giaList k i flat l).2.1 = pruneList l
    ∧ (giaList k i flat l).2.2 = pruneList l
    ∧ (∀ key, aget (giaList k i flat l).1 key = aget flat key ∨ isSubkeyOf k key)
  | k, i, flat, [], h =>
      ⟨h, rfl, rfl, fun _ => Or.inl rfl⟩
  | k, i, flat, v :: rest, h => by
      obtain ⟨hv1, hv2, hv3, hv4⟩ := giaSpec (k ++ "." ++ natToString i) v
      have hnd1 : keysNodup (aupd flat (get_inner_attributes (k ++ "." ++ natToString i) v).1) :=
        keysNodup_aupd _ flat h
      have hroot : aget (aupd flat (get_inner_attributes (k ++ "." ++ natToString i) v).1)
          (k ++ "." ++ natToString i) = some (pruneDeep v) :=
        aget_aupd_of_some _ _ _ _ hv3 hv1
      obtain ⟨ih1, ih2, ih3, ih4⟩ := giaListSpec k (i + 1)
        (aupd flat (get_inner_attributes (k ++ "." ++ natToString i) v).1) rest hnd1
      simp only [giaList]
      refine ⟨ih1, ?_, ?_, ?_⟩
      · simp only [pruneList]
        rw [hroot, Option.getD_some, ih2]
      · simp only [pruneList]
        rw [hv2, ih3]
      · intro key
        rcases ih4 key with he | hs
        · rw [he]
          cases hrf : aget (get_inner_attributes (k ++ "." ++ natToString i) v).1 key with
          | none => exact Or.inl (aget_aupd_of_none _ _ _ hrf)
          | some w =>
              right
              rcases hv4 key (by rw [hrf]; rfl) with he2 | ⟨t', ht', he2⟩
              · exact ⟨natToString i, natToString_ne_empty i, he2⟩
              · refine ⟨natToString i ++ "." ++ t', subkey_ne_empty _ _, ?_⟩
                rw [he2, subkey_assoc]
        · exact Or.inr hs

/-- Joint specification of the mapping loop of `get_inner_attributes`. -/
theorem giaDictSpec : ∀ (k : String) (flat : AList Value) (d : List (String × Value)),
    keysNodup flat →
    keysNodup (giaDict k flat d).1
    ∧ (giaDict k flat d).2.1 = pruneDict d
    ∧ (giaDict k flat d).2.2 = pruneDict d
    ∧ (∀ key, aget (giaDict k flat d).1 key = aget flat key ∨ isSubkeyOf k key)
  | k, flat, [], h =>
      ⟨h, rfl, rfl, fun _ => Or.inl rfl⟩
  | k, flat, (key₀, v) :: rest, h => by
      by_cases hk0 : key₀ = ""
      · subst hk0
        simp only [giaDict, pruneDict, if_pos rfl]
        exact giaDictSpec k flat rest h
      · obtain ⟨hv1, hv2, hv3, hv4⟩ := giaSpec (k ++ "." ++ key₀) v
        have hnd1 : keysNodup (aupd flat (get_inner_attributes (k ++ "." ++ key₀) v).1) :=
          keysNodup_aupd _ flat h
        have hroot : aget (aupd flat (get_inner_attributes (k ++ "." ++ key₀) v).1)
            (k ++ "." ++ key₀) = some (pruneDeep v) :=
          aget_aupd_of_some _ _ _ _ hv3 hv1
        obtain ⟨ih1, ih2, ih3, ih4⟩ := giaDictSpec k
          (aupd flat (get_inner_attributes (k ++ "." ++ key₀) v).1) rest hnd1
        simp only [giaDict, pruneDict, if_neg hk0]
        refine ⟨ih1, ?_, ?_, ?_⟩
        · rw [hroot, Option.getD_some, ih2]
        · rw [hv2, ih3]
        · intro key
          rcases ih4 key with he | hs
          · rw [he]
            cases hrf : aget (get_inner_attributes (k ++ "." ++ key₀) v).1 key with
            | none => exact Or.inl (aget_aupd_of_none _ _ _ hrf)
            | some w =>
                right
                rcases hv4 key (by rw [hrf]; rfl) with he2 | ⟨t', ht', he2⟩
                · exact ⟨key₀, hk0, he2⟩
                · refine ⟨key₀ ++ "." ++ t', subkey_ne_empty _ _, ?_⟩
                  rw [he2, subkey_assoc]
          · exact Or.inr hs
end

theorem listNulls_pruneList (l : List Value) : listNulls (pruneList l) = listNulls l := by
  induction l with
  | nil => rfl
  | cons v rest ih => simp [pruneList, listNulls] at ih ⊢; exact ih

mutual
/-- Flattening is invariant under deep empty-key removal of the input. -/
theorem giaPrune : ∀ (k : String) (v : Value),
    get_inner_attributes k (pruneDeep v) = get_inner_attributes k v
  | _, Value.vnull => rfl
  | _, Value.vbool _ => rfl
  | _, Value.vint _ => rfl
  | _, Value.vstr _ => rfl
  | k, Value.vlist l => by
      show get_inner_attributes k (Value.vlist (pruneList l)) = get_inner_attributes k (Value.vlist l)
      simp only [get_inner_attributes]
      rw [listNulls_pruneList, giaListPrune k 0 _ l]
  | k, Value.vdict d => by
      show get_inner_attributes k (Value.vdict (pruneDict d)) = get_inner_attributes k (Value.vdict d)
      simp only [get_inner_attributes]
      rw [giaDictPrune k _ d]

/-- Sequence-loop version of `giaPrune`. -/
theorem giaListPrune : ∀ (k : String) (i : Nat) (flat : AList Value) (l : List Value),
    giaList k i flat (pruneList l) = giaList k i flat l
  | _, _, _, [] => rfl
  | k, i, flat, v :: rest => by
      show giaList k i flat (pruneDeep v :: pruneList rest) = giaList k i flat (v :: rest)
      simp only [giaList]
      rw [giaPrune (k ++ "." ++ natToString i) v,
        giaListPrune k (i + 1) (aupd flat (get_inner_attributes (k ++ "." ++ natToString i) v).1) rest]

/-- Mapping-loop version of `giaPrune`. -/
theorem giaDictPrune : ∀ (k : String) (flat : AList Value) (d : List (String × Value)),
    giaDict k flat (pruneDict d) = giaDict k flat d
  | _, _, [] => rfl
  | k, flat, (key₀, v) :: rest => by
      by_cases hk0 : key₀ = ""
      · subst hk0
        have e1 : pruneDict ((("" : String), v) :: rest) = pruneDict rest := by
          simp [pruneDict]
        have e2 : giaDict k flat ((("" : String), v) :: rest) = giaDict k flat rest := by
          simp [giaDict]
        rw [e1, e2, giaDictPrune k flat rest]
      · have e1 : pruneDict ((key₀, v) :: rest) = (key₀, pruneDeep v) :: pruneDict rest := by
          simp [pruneDict, hk0]
        rw [e1]
        simp only [giaDict, if_neg hk0]
        rw [giaPrune (k ++ "." ++ key₀) v,
          giaDictPrune k (aupd flat (get_inner_attributes (k ++ "." ++ key₀) v).1) rest]
end

theorem pruneDeep_idem (v : Value) : pruneDeep (pruneDeep v) = pruneDeep v := by
  have h1 := (giaSpec "x" (pruneDeep v)).2.1
  rw [giaPrune "x" v] at h1
  have h2 := (giaSpec "x" v).2.1
  rw [← h1, h2]

mutual
/-- The pruned value contains no empty-string map key anywhere. -/
theorem noEmptyKey_prune : ∀ v : Value, noEmptyKey (pruneDeep v) = true
  | Value.vnull => rfl
  | Value.vbool _ => rfl
  | Value.vint _ => rfl
  | Value.vstr _ => rfl
  | Value.vlist l => by
      show noEmptyKey (Value.vlist (pruneList l)) = true
      simp only [noEmptyKey]
      exact noEmptyKeyList_prune l
  | Value.vdict d => by
      show noEmptyKey (Value.vdict (pruneDict d)) = true
      simp only [noEmptyKey]
      exact noEmptyKeyDict_prune d

/-- Sequence version of `noEmptyKey_prune`. -/
theorem noEmptyKeyList_prune : ∀ l : List Value, noEmptyKeyList (pruneList l) = true
  | [] => rfl
  | v :: rest => by
      show noEmptyKeyList (pruneDeep v :: pruneList rest) = true
      simp only [noEmptyKeyList, Bool.and_eq_true]
      exact ⟨noEmptyKey_prune v, noEmptyKeyList_prune rest⟩

/-- Mapping version of `noEmptyKey_prune`. -/
theorem noEmptyKeyDict_prune : ∀ d : List (String × Value), noEmptyKeyDict (pruneDict d) = true
  | [] => rfl
  | (k, v) :: rest => by
      by_cases hk : k = ""
      · subst hk
        show noEmptyKeyDict (pruneDict (("", v) :: rest)) = true
        rw [show pruneDict ((("" : String), v) :: rest) = pruneDict rest from by simp [pruneDict]]
        exact noEmptyKeyDict_prune rest
      · show noEmptyKeyDict (pruneDict ((k, v) :: rest)) = true
        rw [show pruneDict ((k, v) :: rest) = (k, pruneDeep v) :: pruneDict rest from by
          simp [pruneDict, hk]]
        simp only [noEmptyKeyDict, Bool.and_eq_true]
        exact ⟨⟨by simp [hk], noEmptyKey_prune v⟩, noEmptyKeyDict_prune rest⟩
end

theorem pruneDeep_scalar : ∀ v : Value,
    (∀ l, v ≠ Value.vlist l) → (∀ d, v ≠ Value.vdict d) → pruneDeep v = v
  | Value.vnull, _, _ => rfl
  | Value.vbool _, _, _ => rfl
  | Value.vint _, _, _ => rfl
  | Value.vstr _, _, _ => rfl
  | Value.vlist l, h, _ => absurd rfl (h l)
  | Value.vdict d, _, h => absurd rfl (h d)

theorem origin_entry_self (v : Value) (base : AList Value) :
    origin_entry "self" v base = (aset base "self_" (unwrap_singleton v), v) := by
  simp [origin_entry]

theorem origin_entry_snd (k : String) (v : Value) (base : AList Value) (h : k ≠ "self") :
    (origin_entry k v base).2 = pruneDeep v := by
  cases v with
  | vnull => simp [origin_entry, unwrap_singleton, h, pruneDeep]
  | vbool b => simp [origin_entry, unwrap_singleton, h, pruneDeep]
  | vint n => simp [origin_entry, unwrap_singleton, h, pruneDeep]
  | vstr t => simp [origin_entry, unwrap_singleton, h, pruneDeep]
  | vdict d =>
      simp only [origin_entry, unwrap_singleton, if_neg h]
      exact (giaSpec k (Value.vdict d)).2.1
  | vlist l =>
      cases l with
      | nil =>
          simp only [origin_entry, unwrap_singleton, if_neg h]
          exact (giaSpec k (Value.vlist [])).2.1
      | cons x t =>
          cases t with
          | nil =>
              cases x with
              | vnull => simp [origin_entry, unwrap_singleton, h, pruneDeep, pruneList]
              | vbool b => simp [origin_entry, unwrap_singleton, h, pruneDeep, pruneList]
              | vint n => simp [origin_entry, unwrap_singleton, h, pruneDeep, pruneList]
              | vstr s => simp [origin_entry, unwrap_singleton, h, pruneDeep, pruneList]
              | vlist l' =>
                  simp only [origin_entry, unwrap_singleton, if_neg h]
                  show Value.vlist [(get_inner_attributes k (Value.vlist l')).2] =
                    pruneDeep (Value.vlist [Value.vlist l'])
                  rw [(giaSpec k (Value.vlist l')).2.1]
                  rfl
              | vdict d' =>
                  simp only [origin_entry, unwrap_singleton, if_neg h]
                  show Value.vlist [(get_inner_attributes k (Value.vdict d')).2] =
                    pruneDeep (Value.vlist [Value.vdict d'])
                  rw [(giaSpec k (Value.vdict d')).2.1]
                  rfl
          | cons y t' =>
              simp only [origin_entry, unwrap_singleton, if_neg h]
              exact (giaSpec k (Value.vlist (x :: y :: t'))).2.1

theorem origin_entry_prune (k : String) (v : Value) (base : AList Value) (h : k ≠ "self") :
    origin_entry k (pruneDeep v) base = ((origin_entry k v base).1, pruneDeep v) := by
  cases v with
  | vnull => simp [origin_entry, unwrap_singleton, h, pruneDeep]
  | vbool b => simp [origin_entry, unwrap_singleton, h, pruneDeep]
  | vint n => simp [origin_entry, unwrap_singleton, h, pruneDeep]
  | vstr t => simp [origin_entry, unwrap_singleton, h, pruneDeep]
  | vdict d =>
      show origin_entry k (Value.vdict (pruneDict d)) base = _
      simp only [origin_entry, unwrap_singleton, if_neg h]
      rw [show get_inner_attributes k (Value.vdict (pruneDict d)) =
        get_inner_attributes k (Value.vdict d) from giaPrune k (Value.vdict d)]
      rw [(giaSpec k (Value.vdict d)).2.1]
  | vlist l =>
      cases l with
      | nil =>
          have h2 : (get_inner_attributes k (Value.vlist [])).2 = Value.vlist [] :=
            (giaSpec k (Value.vlist [])).2.1
          show origin_entry k (Value.vlist []) base =
            ((origin_entry k (Value.vlist []) base).1, Value.vlist [])
          simp only [origin_entry, unwrap_singleton, if_neg h]
          rw [h2]
      | cons x t =>
          cases t with
          | nil =>
              cases x with
              | vnull => simp [origin_entry, unwrap_singleton, h, pruneDeep, pruneList]
              | vbool b => simp [origin_entry, unwrap_singleton, h, pruneDeep, pruneList]
              | vint n => simp [origin_entry, unwrap_singleton, h, pruneDeep, pruneList]
              | vstr s => simp [origin_entry, unwrap_singleton, h, pruneDeep, pruneList]
              | vlist l' =>
                  show origin_entry k (Value.vlist [pruneDeep (Value.vlist l')]) base = _
                  simp only [origin_entry, unwrap_singleton, if_neg h]
                  rw [show pruneDeep (Value.vlist l') = Value.vlist (pruneList l') from rfl]
                  rw [show get_inner_attributes k (Value.vlist (pruneList l')) =
                    get_inner_attributes k (Value.vlist l') from giaPrune k (Value.vlist l')]
                  rw [(giaSpec k (Value.vlist l')).2.1]
                  rfl
              | vdict d' =>
                  show origin_entry k (Value.vlist [pruneDeep (Value.vdict d')]) base = _
                  simp only [origin_entry, unwrap_singleton, if_neg h]
                  rw [show pruneDeep (Value.vdict d') = Value.vdict (pruneDict d') from rfl]
                  rw [show get_inner_attributes k (Value.vdict (pruneDict d')) =
                    get_inner_attributes k (Value.vdict d') from giaPrune k (Value.vdict d')]
                  rw [(giaSpec k (Value.vdict d')).2.1]
                  rfl
          | cons y t' =>
              show origin_entry k (Value.vlist (pruneDeep x :: pruneDeep y :: pruneList t')) base = _
              simp only [origin_entry, unwrap_singleton, if_neg h]
              rw [show (Value.vlist (pruneDeep x :: pruneDeep y :: pruneList t')) =
                pruneDeep (Value.vlist (x :: y :: t')) from rfl]
              rw [giaPrune k (Value.vlist (x :: y :: t'))]
              rw [(giaSpec k (Value.vlist (x :: y :: t'))).2.1]

theorem goa_snd : ∀ (attrs base : AList Value),
    (get_origin_attributes attrs base).2 = pruneAttrs attrs
  | [], _ => rfl
  | (k, v) :: rest, base => by
      by_cases hself : k = "self"
      · subst hself
        simp only [get_origin_attributes, pruneAttrs, if_pos rfl]
        rw [goa_snd rest _, origin_entry_self]
        simp
      · simp only [get_origin_attributes, pruneAttrs, if_neg hself]
        rw [goa_snd rest _, origin_entry_snd k v base hself]

theorem goa_prune : ∀ (attrs base : AList Value),
    get_origin_attributes (pruneAttrs attrs) base =
      ((get_origin_attributes attrs base).1, pruneAttrs attrs)
  | [], _ => rfl
  | (k, v) :: rest, base => by
      by_cases hself : k = "self"
      · subst hself
        have e1 : pruneAttrs (("self", v) :: rest) = ("self", v) :: pruneAttrs rest := by
          simp [pruneAttrs]
        rw [e1]
        simp only [get_origin_attributes]
        rw [goa_prune rest _]
        rw [origin_entry_self]
      · have e1 : pruneAttrs ((k, v) :: rest) = (k, pruneDeep v) :: pruneAttrs rest := by
          simp [pruneAttrs, hself]
        rw [e1]
        simp only [get_origin_attributes]
        rw [origin_entry_prune k v base hself, goa_prune rest _]

theorem aget_erase_guard {α : Type} (m : AList α) (k : String) :
    aget (if (aget m k).isSome then aerase m k else m) k = none := by
  by_cases h : (aget m k).isSome
  · simp only [h, if_true]
    exact aget_aerase_self m k
  · simp only [h, if_false]
    exact Option.not_isSome_iff_eq_none.mp (by simpa using h)

theorem aget_erase_guard_ne {α : Type} (m : AList α) (k k' : String) (h : k' ≠ k) :
    aget (if (aget m k).isSome then aerase m k else m) k' = aget m k' := by
  by_cases hs : (aget m k).isSome <;> simp [hs, aget_aerase_ne m k k' h]

theorem aget_ite_aset_ne {α : Type} (c : Prop) [Decidable c] (m : AList α) (k k' : String)
    (v : α) (h : k' ≠ k) :
    aget (if c then aset m k v else m) k' = aget m k' := by
  by_cases hc : c <;> simp [hc, aget_aset_ne m k k' v h]

theorem aget_ite_aset_ne_flip {α : Type} (c : Prop) [Decidable c] (m : AList α) (k k' : String)
    (v : α) (h : k' ≠ k) :
    aget (if c then m else aset m k v) k' = aget m k' := by
  by_cases hc : c <;> simp [hc, aget_aset_ne m k k' v h]

theorem stage1_snd (b : Block) : (export_stage1 b).2 = pruneAttrs b.attributes := by
  simp only [export_stage1]
  exact goa_snd _ _

theorem stage1_changed_key (b : Block) (h : b.changed_attributes ≠ []) :
    aget (export_stage1 b).1 "changed_attributes" =
      some (Value.vlist ((sortStrings (b.changed_attributes.map Prod.fst)).map Value.vstr)) := by
  have hne : ¬(b.changed_attributes.isEmpty = true) := by
    cases hc : b.changed_attributes with
    | nil => exact absurd hc h
    | cons x t => simp [List.isEmpty]
  simp only [export_stage1]
  rw [aget_ite_aset_ne_flip _ _ _ _ _ (by decide : "changed_attributes" ≠ RENDERING_BREADCRUMBS)]
  rw [if_neg hne]
  exact aget_aset_self _ _ _

theorem gad_no_changed_key (b : Block) (flag : Bool) :
    aget (get_attribute_dict b flag).1 "changed_attributes" = none := by
  simp only [get_attribute_dict]
  exact aget_erase_guard _ _

theorem gad_hash_key (b : Block) :
    aget (get_attribute_dict b true).1 HASH =
      some (Value.vstr (calculate_hash (export_stage1 b).1)) := by
  simp only [get_attribute_dict]
  rw [aget_erase_guard_ne _ _ _ (by decide : HASH ≠ "changed_attributes")]
  rw [aget_ite_aset_ne _ _ _ _ _ (by decide : HASH ≠ RESOURCE_TYPE)]
  rw [if_pos trivial]
  exact aget_aset_self _ _ _

/-- C1 (amended): `get_attribute_dict` is not a pure read: its only state
effect is that every stored attribute value other than the one under
`"self"` is deeply stripped of empty-string map keys (so the state is
unchanged exactly when no such key is stored); the block returned by a
second export equals the once-exported block and the dictionary returned
by a second export equals the first — repeated exports are stable. -/
theorem c1_export_state_effect (b : Block) (flag : Bool) :
    (get_attribute_dict b flag).2 = { b with attributes := pruneAttrs b.attributes }
    ∧ (get_attribute_dict (get_attribute_dict b flag).2 flag).1 = (get_attribute_dict b flag).1
    ∧ (get_attribute_dict (get_attribute_dict b flag).2 flag).2 = (get_attribute_dict b flag).2 := by
  obtain ⟨n, c, p, t, attrs, i, s, ch, br, md, mdn⟩ := b
  have hs1 : (export_stage1 (Block.mk n c p t attrs i s ch br md mdn)).2 = pruneAttrs attrs :=
    stage1_snd _
  have hb' : (get_attribute_dict (Block.mk n c p t attrs i s ch br md mdn) flag).2 =
      Block.mk n c p t (pruneAttrs attrs) i s ch br md mdn := by
    simp only [get_attribute_dict]
    rw [hs1]
  have hs2 : export_stage1 (Block.mk n c p t (pruneAttrs attrs) i s ch br md mdn) =
      ((export_stage1 (Block.mk n c p t attrs i s ch br md mdn)).1, pruneAttrs attrs) := by
    simp only [export_stage1, get_base_attributes]
    rw [goa_prune]
  have hgad2 : get_attribute_dict (Block.mk n c p t (pruneAttrs attrs) i s ch br md mdn) flag =
      ((get_attribute_dict (Block.mk n c p t attrs i s ch br md mdn) flag).1,
        Block.mk n c p t (pruneAttrs attrs) i s ch br md mdn) := by
    simp only [get_attribute_dict]
    rw [hs2]
  refine ⟨hb', ?_, ?_⟩
  · rw [hb', hgad2]
  · rw [hb', hgad2]

/-- C1 counterexample: starting from a freshly constructed node and setting
attribute `"a"` to a map with an empty-string key through
`update_attribute`, a single export call changes the node's state (the
empty-string key is deleted from the stored map), refuting the claim that
export leaves the state unchanged in exactly this situation. -/
theorem c1_counterexample :
    (get_attribute_dict (update_attribute (mk_block "n" [] "p" "resource" [] "i" "s") "a"
        (Value.vdict [("", Value.vint 1), ("b", Value.vint 2)]) none [] none false).1 true).2
      ≠ (update_attribute (mk_block "n" [] "p" "resource" [] "i" "s") "a"
        (Value.vdict [("", Value.vint 1), ("b", Value.vint 2)]) none [] none false).1 := by
  intro h
  have h2 := congrArg (fun bl => attr_dict_keys bl "a") h
  exact absurd h2 (by decide)

/-- C7: the exported dictionary never contains the transient bookkeeping
key `"changed_attributes"` (for either value of the hash flag), yet when
`changed_attributes` is non-empty the mapping over which the content hash
is computed does contain that key, bound to the sorted list of
changed-attribute names; the stored hash is computed over exactly that
mapping. -/
theorem c7_changed_attributes_transient (b : Block) (flag : Bool)
    (h : b.changed_attributes ≠ []) :
    aget (get_attribute_dict b flag).1 "changed_attributes" = none
    ∧ aget (export_stage1 b).1 "changed_attributes" =
        some (Value.vlist ((sortStrings (b.changed_attributes.map Prod.fst)).map Value.vstr))
    ∧ aget (get_attribute_dict b true).1 HASH =
        some (Value.vstr (calculate_hash (export_stage1 b).1)) :=
  ⟨gad_no_changed_key b flag, stage1_changed_key b h, gad_hash_key b⟩

/-- C7 witness: a node with one recorded change, exported without hashing. -/
theorem c7_witness :
    ((update_attribute (mk_block "n" [] "p" "t" [] "i" "s") "x" Value.vnull none [] none
        false).1.changed_attributes ≠ [])
    ∧ (aget (get_attribute_dict (update_attribute (mk_block "n" [] "p" "t" [] "i" "s") "x"
          Value.vnull none [] none false).1 false).1 "changed_attributes" = none
      ∧ aget (export_stage1 (update_attribute (mk_block "n" [] "p" "t" [] "i" "s") "x"
          Value.vnull none [] none false).1).1 "changed_attributes" =
          some (Value.vlist ((sortStrings ((update_attribute (mk_block "n" [] "p" "t" [] "i" "s")
            "x" Value.vnull none [] none
            false).1.changed_attributes.map Prod.fst)).map Value.vstr))
      ∧ aget (get_attribute_dict (update_attribute (mk_block "n" [] "p" "t" [] "i" "s") "x"
          Value.vnull none [] none false).1 true).1 HASH =
          some (Value.vstr (calculate_hash (export_stage1 (update_attribute
            (mk_block "n" [] "p" "t" [] "i" "s") "x" Value.vnull none [] none false).1).1))) :=
  ⟨by decide,
   c7_changed_attributes_transient
     (update_attribute (mk_block "n" [] "p" "t" [] "i" "s") "x" Value.vnull none [] none false).1
     false (by decide)⟩

/-- C10: `get_hash` runs the export with hashing enabled, so the hash key
is always present in the resulting dictionary (the empty-string fallback is
unreachable), and `get_hash` returns exactly the value stored under the
hash key, namely the digest of the stage-one export mapping. -/
theorem c10_get_hash_total (b : Block) :
    aget (get_attribute_dict b true).1 HASH = some (get_hash b)
    ∧ get_hash b = Value.vstr (calculate_hash (export_stage1 b).1) := by
  have h := gad_hash_key b
  have h2 : get_hash b = Value.vstr (calculate_hash (export_stage1 b).1) := by
    simp [get_hash, h]
  exact ⟨by rw [h, h2], h2⟩

theorem pruneDict_no_empty (d : List (String × Value)) : aget (pruneDict d) "" = none := by
  induction d with
  | nil => rfl
  | cons p rest ih =>
      obtain ⟨k₀, v⟩ := p
      by_cases h : k₀ = "" <;> simp [pruneDict, h, aget, ih]

/-- C6: the flat mapping's root entry reconstructs the original nested
value up to removal of empty-string map keys (round-trip); flattening the
reconstructed value again yields the identical result (idempotence); and an
empty sequence is kept as-is, producing only the root entry and no indexed
sub-keys. -/
theorem c6_roundtrip_idempotent (k : String) (v : Value) :
    aget (get_inner_attributes k v).1 k = some (pruneDeep v)
    ∧ get_inner_attributes k (pruneDeep v) = get_inner_attributes k v
    ∧ (get_inner_attributes k (Value.vlist [])).1 = [(k, Value.vlist [])] := by
  refine ⟨(giaSpec k v).1, giaPrune k v, ?_⟩
  simp [get_inner_attributes, giaList, listNulls, aset]

/-- C5: flattening a map containing an empty-string key deletes that entry
from the caller-supplied map (the mutated value is the deep empty-key
pruning of the input, whose mapping no longer binds the empty key); the
empty-string key appears neither inside the reconstructed placeholder
stored under the root key nor as the dotted sub-key of the root, while the
non-empty entries are flattened into the placeholder as usual. -/
theorem c5_empty_key_deleted (k : String) (d : List (String × Value)) (v₀ : Value)
    (h : aget d "" = some v₀) :
    (get_inner_attributes k (Value.vdict d)).2 = pruneDeep (Value.vdict d)
    ∧ aget (pruneDict d) "" = none
    ∧ noEmptyKey (pruneDeep (Value.vdict d)) = true
    ∧ aget (get_inner_attributes k (Value.vdict d)).1 k = some (pruneDeep (Value.vdict d))
    ∧ aget (get_inner_attributes k (Value.vdict d)).1 (k ++ ".") = none := by
  refine ⟨(giaSpec k (Value.vdict d)).2.1, pruneDict_no_empty d,
    noEmptyKey_prune (Value.vdict d), (giaSpec k (Value.vdict d)).1, ?_⟩
  rcases hq : aget (get_inner_attributes k (Value.vdict d)).1 (k ++ ".") with _ | w
  · rfl
  · exfalso
    rcases (giaSpec k (Value.vdict d)).2.2.2 (k ++ ".") (by rw [hq]; rfl) with he | ⟨t, ht, he⟩
    · have h2 := congrArg String.length he
      rw [String.length_append] at h2
      have h3 : (".").length = 1 := rfl
      omega
    · exact subkey_ne_trail k t ht he.symm

/-- C5 witness: flattening `{"": 1, "b": 2}` under root key `"a"`. -/
theorem c5_witness :
    (aget [("", Value.vint 1), ("b", Value.vint 2)] "" = some (Value.vint 1))
    ∧ ((get_inner_attributes "a" (Value.vdict [("", Value.vint 1), ("b", Value.vint 2)])).2 =
        pruneDeep (Value.vdict [("", Value.vint 1), ("b", Value.vint 2)])
      ∧ aget (pruneDict [("", Value.vint 1), ("b", Value.vint 2)]) "" = none
      ∧ noEmptyKey (pruneDeep (Value.vdict [("", Value.vint 1), ("b", Value.vint 2)])) = true
      ∧ aget (get_inner_attributes "a"
          (Value.vdict [("", Value.vint 1), ("b", Value.vint 2)])).1 "a" =
          some (pruneDeep (Value.vdict [("", Value.vint 1), ("b", Value.vint 2)]))
      ∧ aget (get_inner_attributes "a"
          (Value.vdict [("", Value.vint 1), ("b", Value.vint 2)])).1 ("a" ++ ".") = none) :=
  ⟨rfl, c5_empty_key_deleted "a" [("", Value.vint 1), ("b", Value.vint 2)] (Value.vint 1) rfl⟩

theorem origin_entry_no_self_underscore (k : String) (v : Value) (base : AList Value)
    (hk1 : k ≠ "self") (hk2 : k ≠ "self_") :
    aget (origin_entry k v base).1 "self_" = aget base "self_" := by
  have hne : ("self_" : String) ≠ k := fun hh => hk2 hh.symm
  simp only [origin_entry, if_neg hk1]
  generalize unwrap_singleton v = u
  cases u with
  | vnull => exact aget_aset_ne base k "self_" _ hne
  | vbool b => exact aget_aset_ne base k "self_" _ hne
  | vint n => exact aget_aset_ne base k "self_" _ hne
  | vstr t => exact aget_aset_ne base k "self_" _ hne
  | vlist l =>
      have hnone : aget (get_inner_attributes k (Value.vlist l)).1 "self_" = none := by
        rcases hq : aget (get_inner_attributes k (Value.vlist l)).1 "self_" with _ | w
        · rfl
        · exfalso
          rcases (giaSpec k (Value.vlist l)).2.2.2 "self_" (by rw [hq]; rfl) with he | ⟨t, ht, he⟩
          · exact hk2 he.symm
          · exact no_dot_ne_subkey "self_" k t (by decide) he
      exact aget_aupd_of_none _ _ _ hnone
  | vdict d =>
      have hnone : aget (get_inner_attributes k (Value.vdict d)).1 "self_" = none := by
        rcases hq : aget (get_inner_attributes k (Value.vdict d)).1 "self_" with _ | w
        · rfl
        · exfalso
          rcases (giaSpec k (Value.vdict d)).2.2.2 "self_" (by rw [hq]; rfl) with he | ⟨t, ht, he⟩
          · exact hk2 he.symm
          · exact no_dot_ne_subkey "self_" k t (by decide) he
      exact aget_aupd_of_none _ _ _ hnone

theorem goa_preserves_self_underscore : ∀ (attrs base : AList Value),
    (∀ p ∈ attrs, p.1 ≠ "self") → (∀ p ∈ attrs, p.1 ≠ "self_") →
    aget (get_origin_attributes attrs base).1 "self_" = aget base "self_"
  | [], _, _, _ => rfl
  | (k, v) :: rest, base, h1, h2 => by
      have hk1 : k ≠ "self" := h1 (k, v) (List.mem_cons_self _ _)
      have hk2 : k ≠ "self_" := h2 (k, v) (List.mem_cons_self _ _)
      simp only [get_origin_attributes]
      rw [goa_preserves_self_underscore rest _
        (fun p hp => h1 p (List.mem_cons_of_mem _ hp))
        (fun p hp => h2 p (List.mem_cons_of_mem _ hp))]
      exact origin_entry_no_self_underscore k v base hk1 hk2

theorem goa_self_key : ∀ (attrs base : AList Value) (v : Value),
    keysNodup attrs → aget attrs "self" = some v → aget attrs "self_" = none →
    aget (get_origin_attributes attrs base).1 "self_" = some (unwrap_singleton v)
  | [], _, v, _, hself, _ => by simp [aget] at hself
  | (k, w) :: rest, base, v, hnd, hself, hnu => by
      by_cases hk : k = "self"
      · subst hk
        have hw : w = v := by simpa [aget] using hself
        subst hw
        have hmem : "self" ∉ rest.map Prod.fst := by
          have h2 := hnd
          simp only [keysNodup, List.map_cons, List.nodup_cons] at h2
          exact h2.1
        have hrest_self : ∀ p ∈ rest, p.1 ≠ "self" := by
          intro p hp he
          exact hmem (List.mem_map.mpr ⟨p, hp, he⟩)
        have hnu' : aget rest "self_" = none := by simpa [aget] using hnu
        have hrest_su : ∀ p ∈ rest, p.1 ≠ "self_" := by
          intro p hp he
          exact (aget_eq_none_iff rest "self_").mp hnu' (List.mem_map.mpr ⟨p, hp, he⟩)
        simp only [get_origin_attributes]
        rw [goa_preserves_self_underscore rest _ hrest_self hrest_su, origin_entry_self]
        exact aget_aset_self _ _ _
      · have hself' : aget rest "self" = some v := by simpa [aget, hk] using hself
        have hnu' : aget rest "self_" = none := by
          by_cases hk2 : k = "self_"
          · rw [hk2] at hnu
            simp [aget] at hnu
          · simpa [aget, hk2] using hnu
        have hnd' : keysNodup rest := (List.nodup_cons.mp hnd).2
        simp only [get_origin_attributes]
        exact goa_self_key rest _ v hnd' hself' hnu'

theorem aget_pruneAttrs_self : ∀ (attrs : AList Value) (v : Value),
    aget attrs "self" = some v → aget (pruneAttrs attrs) "self" = some v
  | [], v, h => by simp [aget] at h
  | (k, w) :: rest, v, h => by
      by_cases hk : k = "self"
      · subst hk
        have hw : w = v := by simpa [aget] using h
        subst hw
        simp [pruneAttrs, aget]
      · have h' : aget rest "self" = some v := by simpa [aget, hk] using h
        simp only [pruneAttrs, if_neg hk]
        simpa [aget, hk] using aget_pruneAttrs_self rest v h'

/-- C9: an attribute stored under the key `"self"` is exported under the
key `"self_"` with its value passed through after singleton-sequence
unwrapping only — the value is not fed to the codec, so it is not
re-expanded into dotted sub-keys and not mutated in storage (conjunct
three shows a map-valued `self` surviving verbatim, with no `"self_.x"`
entry emitted). -/
theorem c9_self_attribute (attrs base : AList Value) (v : Value)
    (h1 : keysNodup attrs) (h2 : aget attrs "self" = some v)
    (h3 : aget attrs "self_" = none) :
    aget (get_origin_attributes attrs base).1 "self_" = some (unwrap_singleton v)
    ∧ aget (get_origin_attributes attrs base).2 "self" = some v
    ∧ get_origin_attributes [("self", Value.vdict [("x", Value.vint 1)])] [] =
        ([("self_", Value.vdict [("x", Value.vint 1)])],
          [("self", Value.vdict [("x", Value.vint 1)])]) := by
  refine ⟨goa_self_key attrs base v h1 h2 h3, ?_, rfl⟩
  rw [goa_snd]
  exact aget_pruneAttrs_self attrs v h2

/-- C9 witness: a node whose only attribute is a map stored under `"self"`. -/
theorem c9_witness :
    (keysNodup ([("self", Value.vdict [("x", Value.vint 1)])] : AList Value)
      ∧ aget ([("self", Value.vdict [("x", Value.vint 1)])] : AList Value) "self" =
          some (Value.vdict [("x", Value.vint 1)])
      ∧ aget ([("self", Value.vdict [("x", Value.vint 1)])] : AList Value) "self_" = none)
    ∧ (aget (get_origin_attributes [("self", Value.vdict [("x", Value.vint 1)])] []).1 "self_" =
        some (unwrap_singleton (Value.vdict [("x", Value.vint 1)]))
      ∧ aget (get_origin_attributes [("self", Value.vdict [("x", Value.vint 1)])] []).2 "self" =
          some (Value.vdict [("x", Value.vint 1)])
      ∧ get_origin_attributes [("self", Value.vdict [("x", Value.vint 1)])] [] =
          ([("self_", Value.vdict [("x", Value.vint 1)])],
            [("self", Value.vdict [("x", Value.vint 1)])])) :=
  ⟨⟨by simp [keysNodup], rfl, rfl⟩,
   c9_self_attribute [("self", Value.vdict [("x", Value.vint 1)])] []
     (Value.vdict [("x", Value.vint 1)]) (by simp [keysNodup]) rfl rfl⟩

theorem getLast_none_eq_nil {α : Type} (l : List α) (h : l.getLast? = none) : l = [] := by
  cases l with
  | nil => rfl
  | cons x xs =>
      exfalso
      rcases List.getLast?_isSome.mpr (List.cons_ne_nil x xs) with h2
      rw [h] at h2
      simp at h2

theorem breadcrumb_extend_eq (oid : Option Int) (prev : List BreadcrumbMetadata)
    (dest : Option String) :
    (if _should_add_previous_breadcrumbs oid prev dest then
        prev ++ [⟨oid, dest⟩] else prev) =
      match prev.getLast? with
      | none => prev ++ [⟨oid, dest⟩]
      | some m => if m.vertex_id = oid then prev else prev ++ [⟨oid, dest⟩] := by
  cases hl : prev.getLast? with
  | none =>
      have hp : prev = [] := getLast_none_eq_nil prev hl
      subst hp
      simp [_should_add_previous_breadcrumbs]
  | some m =>
      have hne : prev ≠ [] := by
        intro h
        rw [h] at hl
        simp at hl
      have hie : prev.isEmpty = false := by
        cases prev with
        | nil => exact absurd rfl hne
        | cons x xs => rfl
      simp only [_should_add_previous_breadcrumbs, hie, hl]
      by_cases hv : m.vertex_id = oid <;> simp [hv]

/-- C4: `update_attribute` appends exactly one provenance record
`(originNodeId, originAttributePath)` to the supplied chain when the chain
is empty or its last entry's origin differs from the supplied origin, and
otherwise returns the chain untouched — in both cases nothing else in the
chain is modified. -/
theorem c4_breadcrumb_dedup (b : Block) (attribute_key : String) (attribute_value : Value)
    (change_origin_id : Option Int) (previous_breadcrumbs : List BreadcrumbMetadata)
    (attribute_at_dest : Option String) (transform_step : Bool) :
    (update_attribute b attribute_key attribute_value change_origin_id previous_breadcrumbs
        attribute_at_dest transform_step).2 =
      match previous_breadcrumbs.getLast? with
      | none => previous_breadcrumbs ++ [⟨change_origin_id, attribute_at_dest⟩]
      | some m =>
          if m.vertex_id = change_origin_id then previous_breadcrumbs
          else previous_breadcrumbs ++ [⟨change_origin_id, attribute_at_dest⟩] := by
  by_cases hlen : (splitDot attribute_key).length = 1
  · simp only [update_attribute, if_pos hlen]
    exact breadcrumb_extend_eq change_origin_id previous_breadcrumbs attribute_at_dest
  · simp only [update_attribute, if_neg hlen]
    exact breadcrumb_extend_eq change_origin_id previous_breadcrumbs attribute_at_dest

/-- C8: for a dotless path, `update_attribute` stores the new value at the
path and unconditionally records the (possibly breadcrumb-extended)
provenance chain in `changed_attributes` at that path — for any previous
value, any origin (present or absent), and either transform flag. -/
theorem c8_single_segment (b : Block) (attribute_key : String) (attribute_value : Value)
    (change_origin_id : Option Int) (previous_breadcrumbs : List BreadcrumbMetadata)
    (attribute_at_dest : Option String) (transform_step : Bool)
    (h : (splitDot attribute_key).length = 1) :
    aget (update_attribute b attribute_key attribute_value change_origin_id
        previous_breadcrumbs attribute_at_dest transform_step).1.attributes attribute_key =
      some attribute_value
    ∧ aget (update_attribute b attribute_key attribute_value change_origin_id
        previous_breadcrumbs attribute_at_dest transform_step).1.changed_attributes
        attribute_key =
      some (update_attribute b attribute_key attribute_value change_origin_id
        previous_breadcrumbs attribute_at_dest transform_step).2 := by
  simp only [update_attribute, if_pos h]
  exact ⟨aget_aset_self _ _ _, aget_aset_self _ _ _⟩

/-- C8 witness: updating the dotless path `"env"` on a fresh node. -/
theorem c8_witness :
    ((splitDot "env").length = 1)
    ∧ (aget (update_attribute (mk_block "n" [] "p" "t" [] "i" "s") "env"
          (Value.vstr "x") (some 3) [] (some "o") false).1.attributes "env" =
        some (Value.vstr "x")
      ∧ aget (update_attribute (mk_block "n" [] "p" "t" [] "i" "s") "env"
          (Value.vstr "x") (some 3) [] (some "o") false).1.changed_attributes "env" =
        some (update_attribute (mk_block "n" [] "p" "t" [] "i" "s") "env"
          (Value.vstr "x") (some 3) [] (some "o") false).2) :=
  ⟨by decide,
   c8_single_segment (mk_block "n" [] "p" "t" [] "i" "s") "env" (Value.vstr "x") (some 3) []
     (some "o") false (by decide)⟩

/-- C2 counterexample: after `update_attribute("tags.env", "staging",
originId 7, [], "tags.env")` on a freshly constructed node, the attribute
is updated as claimed, but the node's `breadcrumbs` map is never written by
this core, so the export contains no rendering-breadcrumbs entry at all —
refuting the claim that the exported breadcrumbs for `"tags.env"` equal
`[(7, "tags.env")]`. -/
theorem c2_counterexample :
    aget (update_attribute (mk_block "n" [] "p" "resource" [] "i" "s") "tags.env"
        (Value.vstr "staging") (some 7) [] (some "tags.env") false).1.attributes "tags.env" =
      some (Value.vstr "staging")
    ∧ aget (get_attribute_dict (update_attribute (mk_block "n" [] "p" "resource" [] "i" "s")
        "tags.env" (Value.vstr "staging") (some 7) [] (some "tags.env") false).1 true).1
        RENDERING_BREADCRUMBS = none
    ∧ ¬ ∃ bcv, aget (get_attribute_dict (update_attribute
        (mk_block "n" [] "p" "resource" [] "i" "s") "tags.env" (Value.vstr "staging") (some 7)
        [] (some "tags.env") false).1 true).1 RENDERING_BREADCRUMBS = some bcv := by
  refine ⟨rfl, rfl, ?_⟩
  rintro ⟨bcv, hb⟩
  rw [show aget (get_attribute_dict (update_attribute
      (mk_block "n" [] "p" "resource" [] "i" "s") "tags.env" (Value.vstr "staging") (some 7)
      [] (some "tags.env") false).1 true).1 RENDERING_BREADCRUMBS = none from rfl] at hb
  exact Option.noConfusion hb

/-- C2 (amended): the example call updates the attribute and records the
one-entry chain `[(7, "tags.env")]` — but in `changed_attributes` and in
the caller's (mutated) provenance list, not in the exported breadcrumbs:
the node's `breadcrumbs` map stays empty (it is populated by the external
rendering engine), so the export carries no rendering-breadcrumbs key. -/
theorem c2_update_then_export :
    aget (update_attribute (mk_block "n" [] "p" "resource" [] "i" "s") "tags.env"
        (Value.vstr "staging") (some 7) [] (some "tags.env") false).1.attributes "tags.env" =
      some (Value.vstr "staging")
    ∧ aget (update_attribute (mk_block "n" [] "p" "resource" [] "i" "s") "tags.env"
        (Value.vstr "staging") (some 7) [] (some "tags.env") false).1.changed_attributes
        "tags.env" = some [⟨some 7, some "tags.env"⟩]
    ∧ (update_attribute (mk_block "n" [] "p" "resource" [] "i" "s") "tags.env"
        (Value.vstr "staging") (some 7) [] (some "tags.env") false).2 =
      [⟨some 7, some "tags.env"⟩]
    ∧ (update_attribute (mk_block "n" [] "p" "resource" [] "i" "s") "tags.env"
        (Value.vstr "staging") (some 7) [] (some "tags.env") false).1.breadcrumbs = []
    ∧ aget (get_attribute_dict (update_attribute (mk_block "n" [] "p" "resource" [] "i" "s")
        "tags.env" (Value.vstr "staging") (some 7) [] (some "tags.env") false).1 true).1
        RENDERING_BREADCRUMBS = none :=
  ⟨rfl, rfl, rfl, rfl, rfl⟩

theorem contains_of_mem (l : List Char) (c : Char) (h : c ∈ l) : l.contains c = true := by
  induction l with
  | nil => cases h
  | cons x xs ih =>
      rcases List.mem_cons.mp h with h | h
      · subst h
        simp [List.contains, List.elem]
      · by_cases hx : c == x
        · simp [List.contains, List.elem, hx]
        · simp only [List.contains, List.elem, hx]
          exact ih h

theorem jt_inj (parts : List String) (t1 t2 : Nat) (h1 : t1 < parts.length)
    (h2 : t2 < parts.length)
    (he : join_trimmed_strings '.' parts t1 = join_trimmed_strings '.' parts t2) : t1 = t2 := by
  rcases Nat.lt_trichotomy t1 t2 with h | h | h
  · exact absurd he.symm (jt_ne parts t1 t2 h h2)
  · exact h
  · exact absurd he (jt_ne parts t2 t1 h h1)

theorem aget_map_entry {α : Type} (f : Nat → String) (g : Nat → α) :
    ∀ (idxs : List Nat) (i : Nat), i ∈ idxs → (∀ t ∈ idxs, f t = f i → t = i) →
    aget (idxs.map (fun t => (f t, g t))) (f i) = some (g i)
  | [], i, hmem, _ => absurd hmem (List.not_mem_nil i)
  | t :: rest, i, hmem, hinj => by
      by_cases ht : f t = f i
      · have hti : t = i := hinj t (List.mem_cons_self _ _) ht
        subst hti
        simp [aget]
      · have hmem' : i ∈ rest := by
          rcases List.mem_cons.mp hmem with h | h
          · exfalso
            apply ht
            rw [h]
          · exact h
        simp only [List.map_cons, aget, if_neg ht]
        exact aget_map_entry f g rest i hmem' (fun t' ht' he => hinj t' (List.mem_cons_of_mem _ ht') he)

theorem aget_map_none {α : Type} (f : Nat → String) (g : Nat → α) :
    ∀ (idxs : List Nat) (key : String), (∀ t ∈ idxs, f t ≠ key) →
    aget (idxs.map (fun t => (f t, g t))) key = none
  | [], _, _ => rfl
  | t :: rest, key, h => by
      simp only [List.map_cons, aget, if_neg (h t (List.mem_cons_self _ _))]
      exact aget_map_none f g rest key (fun t' ht' => h t' (List.mem_cons_of_mem _ ht'))

theorem keysNodup_map {α : Type} (f : Nat → String) (g : Nat → α) (idxs : List Nat)
    (hinj : ∀ t1 ∈ idxs, ∀ t2 ∈ idxs, f t1 = f t2 → t1 = t2) (hnd : idxs.Nodup) :
    keysNodup (idxs.map (fun t => (f t, g t))) := by
  show ((idxs.map (fun t => (f t, g t))).map Prod.fst).Nodup
  rw [List.map_map]
  have he : (Prod.fst ∘ fun t => (f t, g t)) = f := rfl
  rw [he]
  exact List.Nodup.map_on hinj hnd

theorem aget_aupd_map_eq {α : Type} (A : AList α) (f : Nat → String) (g : Nat → α)
    (idxs : List Nat) (i : Nat) (hmem : i ∈ idxs)
    (hinj : ∀ t1 ∈ idxs, ∀ t2 ∈ idxs, f t1 = f t2 → t1 = t2) (hnd : idxs.Nodup) :
    aget (aupd A (idxs.map (fun t => (f t, g t)))) (f i) = some (g i) :=
  aget_aupd_of_some _ _ _ _ (keysNodup_map f g idxs hinj hnd)
    (aget_map_entry f g idxs i hmem (fun t ht he => hinj t ht i hmem he))

theorem aget_aupd_map_none {α : Type} (A : AList α) (f : Nat → String) (g : Nat → α)
    (idxs : List Nat) (key : String) (h : ∀ t ∈ idxs, f t ≠ key) :
    aget (aupd A (idxs.map (fun t => (f t, g t)))) key = aget A key :=
  aget_aupd_of_none _ _ _ (aget_map_none f g idxs key h)

theorem writesA_self (parts : List String) (v : Value) (j : Nat) :
    writesA parts v j j = [(join_trimmed_strings '.' parts j, iterWrap parts v j)] := by
  rw [writesA, show j + 1 - j = 1 from by omega]
  rw [show List.range 1 = [0] from rfl]
  simp

theorem writesC_self (parts : List String) (bc : List BreadcrumbMetadata) (j : Nat) :
    writesC parts bc j j = [] := by
  simp [writesC]

theorem writesA_cons (parts : List String) (v : Value) (m j : Nat) (h : m ≤ j) :
    writesA parts v m j =
      (join_trimmed_strings '.' parts m, iterWrap parts v m) :: writesA parts v (m + 1) j := by
  simp only [writesA]
  rw [show j + 1 - m = (j + 1 - (m + 1)) + 1 from by omega, List.range_succ_eq_map]
  simp only [List.map_cons, List.map_map, Nat.add_zero]
  congr 1
  apply List.map_congr_left
  intro t _
  simp only [Function.comp_apply]
  rw [show m + (t + 1) = m + 1 + t from by omega]

theorem writesC_cons (parts : List String) (bc : List BreadcrumbMetadata) (m j : Nat)
    (h : m < j) :
    writesC parts bc m j =
      (join_trimmed_strings '.' parts m, bc) :: writesC parts bc (m + 1) j := by
  simp only [writesC]
  rw [show j - m = (j - (m + 1)) + 1 from by omega, List.range_succ_eq_map]
  simp only [List.map_cons, List.map_map, Nat.add_zero]
  congr 1
  apply List.map_congr_left
  intro t _
  simp only [Function.comp_apply]
  rw [show m + (t + 1) = m + 1 + t from by omega]

theorem writesA_zero (parts : List String) (v : Value) (j : Nat) :
    writesA parts v 0 j =
      (List.range (j + 1)).map (fun t => (join_trimmed_strings '.' parts t, iterWrap parts v t)) := by
  simp [writesA]

theorem writesC_zero (parts : List String) (bc : List BreadcrumbMetadata) (j : Nat) :
    writesC parts bc 0 j =
      (List.range j).map (fun t => (join_trimmed_strings '.' parts t, bc)) := by
  simp [writesC]

theorem numbered_preserves (attribute_key key' : String)
    (h : ∀ idx : Nat, key' ≠ attribute_key ++ "." ++ natToString idx) :
    ∀ (l : List Value) (i0 : Nat) (m : AList Value),
    aget (numberedWrites attribute_key i0 m l) key' = aget m key'
  | [], _, _ => rfl
  | v :: rest, i0, m => by
      simp only [numberedWrites]
      rw [numbered_preserves attribute_key key' h rest (i0 + 1) _]
      exact aget_aset_ne _ _ _ _ (h i0)

theorem walk_eq (parts : List String) (v : Value) (bc : List BreadcrumbMetadata)
    (oid : Option Int) (dest : Option String) (j : Nat)
    (h3 : j + 1 < parts.length)
    (h4 : parts.getD (parts.length - 1 - j) "" = "1"
        ∨ parts.getD (parts.length - 1 - j) "" = "2")
    (h5 : ∀ i < j, ¬(parts.getD (parts.length - 1 - i) "" = "1"
        ∨ parts.getD (parts.length - 1 - i) "" = "2")) :
    ∀ (d m : Nat), m + d = j → ∀ (A : AList Value) (C : AList (List BreadcrumbMetadata)),
      update_walk parts true bc oid dest (parts.length - m) m (iterWrap parts v m) A C =
        (aupd A (writesA parts v m j), aupd C (writesC parts bc m j)) := by
  intro d
  induction d with
  | zero =>
      intro m hm A C
      have hmj : m = j := by omega
      subst hmj
      rw [show parts.length - m = (parts.length - m - 1) + 1 from by omega]
      simp only [update_walk]
      have hdot : (join_trimmed_strings '.' parts m).data.contains '.' = true :=
        contains_of_mem _ _ (jt_contains_dot parts m (by omega))
      rw [hdot, if_pos rfl]
      have hstop : (true && (parts.getD (parts.length - 1 - m) "" == "1"
          || parts.getD (parts.length - 1 - m) "" == "2")) = true := by
        rcases h4 with h4 | h4 <;> rw [h4] <;> rfl
      rw [hstop, if_pos rfl]
      rw [writesA_self, writesC_self]
      rfl
  | succ d ih =>
      intro m hm A C
      have hmj : m < j := by omega
      rw [show parts.length - m = (parts.length - (m + 1)) + 1 from by omega]
      simp only [update_walk]
      have hdot : (join_trimmed_strings '.' parts m).data.contains '.' = true :=
        contains_of_mem _ _ (jt_contains_dot parts m (by omega))
      rw [hdot, if_pos rfl]
      have hstop : (true && (parts.getD (parts.length - 1 - m) "" == "1"
          || parts.getD (parts.length - 1 - m) "" == "2")) = false := by
        rcases not_or.mp (h5 m hmj) with ⟨hA, hB⟩
        have e1 : (parts.getD (parts.length - 1 - m) "" == "1") = false :=
          beq_eq_false_iff_ne.mpr hA
        have e2 : (parts.getD (parts.length - 1 - m) "" == "2") = false :=
          beq_eq_false_iff_ne.mpr hB
        rw [e1, e2]
        rfl
      rw [hstop, if_neg (by simp)]
      have hset : _should_set_changed_attributes oid dest = true := rfl
      rw [hset, if_pos rfl]
      have hwrap : Value.vdict [(parts.getD (parts.length - 1 - m) "", iterWrap parts v m)] =
          iterWrap parts v (m + 1) := rfl
      rw [hwrap]
      rw [ih (m + 1) (by omega) (aset A (join_trimmed_strings '.' parts m) (iterWrap parts v m))
        (aset C (join_trimmed_strings '.' parts m) bc)]
      rw [writesA_cons parts v m j (by omega), writesC_cons parts bc m j hmj]
      rfl

theorem walk_final_lookups (parts : List String) (v : Value) (bc : List BreadcrumbMetadata)
    (oid : Option Int) (dest : Option String) (j : Nat)
    (A : AList Value) (C : AList (List BreadcrumbMetadata))
    (h3 : j + 1 < parts.length)
    (h4 : parts.getD (parts.length - 1 - j) "" = "1"
        ∨ parts.getD (parts.length - 1 - j) "" = "2")
    (h5 : ∀ i < j, ¬(parts.getD (parts.length - 1 - i) "" = "1"
        ∨ parts.getD (parts.length - 1 - i) "" = "2")) :
    (∀ i, j < i → i < parts.length →
      aget (update_walk parts true bc oid dest parts.length 0 v A C).1
          (join_trimmed_strings '.' parts i) = aget A (join_trimmed_strings '.' parts i)
      ∧ aget (update_walk parts true bc oid dest parts.length 0 v A C).2
          (join_trimmed_strings '.' parts i) = aget C (join_trimmed_strings '.' parts i))
    ∧ aget (update_walk parts true bc oid dest parts.length 0 v A C).2
        (join_trimmed_strings '.' parts j) = aget C (join_trimmed_strings '.' parts j)
    ∧ (∀ i, i ≤ j →
        aget (update_walk parts true bc oid dest parts.length 0 v A C).1
          (join_trimmed_strings '.' parts i) = some (iterWrap parts v i)) := by
  have hw : update_walk parts true bc oid dest parts.length 0 v A C =
      (aupd A (writesA parts v 0 j), aupd C (writesC parts bc 0 j)) := by
    have h0 := walk_eq parts v bc oid dest j h3 h4 h5 j 0 (by omega) A C
    simpa [iterWrap] using h0
  rw [hw]
  refine ⟨?_, ?_, ?_⟩
  · intro i hji hin
    constructor
    · rw [writesA_zero]
      apply aget_aupd_map_none
      intro t htm he
      have ht : t < j + 1 := List.mem_range.mp htm
      have := jt_inj parts t i (by omega) hin he
      omega
    · rw [writesC_zero]
      apply aget_aupd_map_none
      intro t htm he
      have ht : t < j := List.mem_range.mp htm
      have := jt_inj parts t i (by omega) hin he
      omega
  · rw [writesC_zero]
    apply aget_aupd_map_none
    intro t htm he
    have ht : t < j := List.mem_range.mp htm
    have := jt_inj parts t j (by omega) (by omega) he
    omega
  · intro i hij
    rw [writesA_zero]
    exact aget_aupd_map_eq A _ _ (List.range (j + 1)) i (List.mem_range.mpr (by omega))
      (fun t1 h1 t2 h2t he =>
        jt_inj parts t1 t2 (by have := List.mem_range.mp h1; omega)
          (by have := List.mem_range.mp h2t; omega) he)
      (List.nodup_range _)

theorem c3_core (parts : List String) (v : Value) (bc : List BreadcrumbMetadata)
    (oid : Option Int) (dest : Option String) (j : Nat)
    (A0 : AList Value) (C0 : AList (List BreadcrumbMetadata)) (battrs : AList Value)
    (hA0 : ∀ i, 1 ≤ i → i < parts.length →
      aget A0 (join_trimmed_strings '.' parts i) = aget battrs (join_trimmed_strings '.' parts i))
    (h3 : j + 1 < parts.length)
    (h4 : parts.getD (parts.length - 1 - j) "" = "1"
        ∨ parts.getD (parts.length - 1 - j) "" = "2")
    (h5 : ∀ i < j, ¬(parts.getD (parts.length - 1 - i) "" = "1"
        ∨ parts.getD (parts.length - 1 - i) "" = "2")) :
    (∀ i, j < i → i < parts.length →
      aget (update_walk parts true bc oid dest parts.length 0 v A0 C0).1
          (join_trimmed_strings '.' parts i) = aget battrs (join_trimmed_strings '.' parts i)
      ∧ aget (update_walk parts true bc oid dest parts.length 0 v A0 C0).2
          (join_trimmed_strings '.' parts i) = aget C0 (join_trimmed_strings '.' parts i))
    ∧ aget (update_walk parts true bc oid dest parts.length 0 v A0 C0).2
        (join_trimmed_strings '.' parts j) = aget C0 (join_trimmed_strings '.' parts j)
    ∧ (∀ i, i ≤ j →
        aget (update_walk parts true bc oid dest parts.length 0 v A0 C0).1
          (join_trimmed_strings '.' parts i) = some (iterWrap parts v i)) := by
  obtain ⟨pA, pB, pC⟩ := walk_final_lookups parts v bc oid dest j A0 C0 h3 h4 h5
  refine ⟨?_, pB, pC⟩
  intro i hji hin
  refine ⟨?_, (pA i hji hin).2⟩
  rw [(pA i hji hin).1]
  exact hA0 i (by omega) hin

/-- C3: with `transform_step` set, the dotted-path walk of
`update_attribute` writes attribute entries for the trimmed prefixes only
up to the first iteration whose trimmed-off trailing segment is `"1"` or
`"2"` (index `j` below, counting trimmed segments); at that iteration it
stops: the entry for that prefix is written but not recorded in
`changed_attributes`, and every strictly shorter prefix — including the
root segment, e.g. `"a"` for path `"a.1.b"` — is neither written nor
recorded. -/
theorem c3_transform_step_early_stop (b : Block) (attribute_key : String)
    (attribute_value : Value) (change_origin_id : Option Int)
    (previous_breadcrumbs : List BreadcrumbMetadata) (attribute_at_dest : Option String)
    (j : Nat)
    (h2 : 1 < (splitDot attribute_key).length)
    (h3 : j + 1 < (splitDot attribute_key).length)
    (h4 : (splitDot attribute_key).getD ((splitDot attribute_key).length - 1 - j) "" = "1"
        ∨ (splitDot attribute_key).getD ((splitDot attribute_key).length - 1 - j) "" = "2")
    (h5 : ∀ i < j,
        ¬((splitDot attribute_key).getD ((splitDot attribute_key).length - 1 - i) "" = "1"
          ∨ (splitDot attribute_key).getD ((splitDot attribute_key).length - 1 - i) "" = "2")) :
    (∀ i, j < i → i < (splitDot attribute_key).length →
      aget (update_attribute b attribute_key attribute_value change_origin_id
          previous_breadcrumbs attribute_at_dest true).1.attributes
          (join_trimmed_strings '.' (splitDot attribute_key) i) =
        aget b.attributes (join_trimmed_strings '.' (splitDot attribute_key) i)
      ∧ aget (update_attribute b attribute_key attribute_value change_origin_id
          previous_breadcrumbs attribute_at_dest true).1.changed_attributes
          (join_trimmed_strings '.' (splitDot attribute_key) i) =
        aget b.changed_attributes (join_trimmed_strings '.' (splitDot attribute_key) i))
    ∧ aget (update_attribute b attribute_key attribute_value change_origin_id
        previous_breadcrumbs attribute_at_dest true).1.changed_attributes
        (join_trimmed_strings '.' (splitDot attribute_key) j) =
      aget b.changed_attributes (join_trimmed_strings '.' (splitDot attribute_key) j)
    ∧ (∀ i, i ≤ j →
        aget (update_attribute b attribute_key attribute_value change_origin_id
          previous_breadcrumbs attribute_at_dest true).1.attributes
          (join_trimmed_strings '.' (splitDot attribute_key) i) =
        some (iterWrap (splitDot attribute_key) attribute_value i)) := by
  have hlen1 : ¬((splitDot attribute_key).length = 1) := by omega
  simp only [update_attribute, if_neg hlen1]
  have hkey : join_trimmed_strings '.' (splitDot attribute_key) 0 = attribute_key :=
    jt_zero attribute_key
  cases attribute_value with
  | vlist l =>
      refine c3_core (splitDot attribute_key) (Value.vlist l) _ change_origin_id
        attribute_at_dest j (numberedWrites attribute_key 0 b.attributes l)
        b.changed_attributes b.attributes ?_ h3 h4 h5
      intro i h1i hin
      refine numbered_preserves attribute_key _ ?_ l 0 b.attributes
      intro idx he
      have hlt : (join_trimmed_strings '.' (splitDot attribute_key) i).length <
          (join_trimmed_strings '.' (splitDot attribute_key) 0).length :=
        jt_length_lt (splitDot attribute_key) 0 i (by omega) hin
      rw [hkey] at hlt
      have hlen2 := congrArg String.length he
      rw [subkey_length] at hlen2
      omega
  | vnull =>
      exact c3_core (splitDot attribute_key) Value.vnull _ change_origin_id attribute_at_dest j
        b.attributes b.changed_attributes b.attributes (fun _ _ _ => rfl) h3 h4 h5
  | vbool x =>
      exact c3_core (splitDot attribute_key) (Value.vbool x) _ change_origin_id attribute_at_dest
        j b.attributes b.changed_attributes b.attributes (fun _ _ _ => rfl) h3 h4 h5
  | vint x =>
      exact c3_core (splitDot attribute_key) (Value.vint x) _ change_origin_id attribute_at_dest
        j b.attributes b.changed_attributes b.attributes (fun _ _ _ => rfl) h3 h4 h5
  | vstr x =>
      exact c3_core (splitDot attribute_key) (Value.vstr x) _ change_origin_id attribute_at_dest
        j b.attributes b.changed_attributes b.attributes (fun _ _ _ => rfl) h3 h4 h5
  | vdict x =>
      exact c3_core (splitDot attribute_key) (Value.vdict x) _ change_origin_id attribute_at_dest
        j b.attributes b.changed_attributes b.attributes (fun _ _ _ => rfl) h3 h4 h5

/-- C3 witness: `update_attribute("a.1.b", v, transform_step := true)` on a
fresh node stops when segment `"1"` is trimmed off: `"a.1.b"` and `"a.1"`
are written, `"a"` is untouched, and only `"a.1.b"` is recorded. -/
theorem c3_witness :
    (1 < (splitDot "a.1.b").length
      ∧ 1 + 1 < (splitDot "a.1.b").length
      ∧ ((splitDot "a.1.b").getD ((splitDot "a.1.b").length - 1 - 1) "" = "1"
        ∨ (splitDot "a.1.b").getD ((splitDot "a.1.b").length - 1 - 1) "" = "2")
      ∧ (∀ i < 1, ¬((splitDot "a.1.b").getD ((splitDot "a.1.b").length - 1 - i) "" = "1"
          ∨ (splitDot "a.1.b").getD ((splitDot "a.1.b").length - 1 - i) "" = "2")))
    ∧ ((∀ i, 1 < i → i < (splitDot "a.1.b").length →
        aget (update_attribute (mk_block "n" [] "p" "t" [] "i" "s") "a.1.b"
            (Value.vstr "v") (some 7) [] (some "x") true).1.attributes
            (join_trimmed_strings '.' (splitDot "a.1.b") i) =
          aget (mk_block "n" [] "p" "t" [] "i" "s").attributes
            (join_trimmed_strings '.' (splitDot "a.1.b") i)
        ∧ aget (update_attribute (mk_block "n" [] "p" "t" [] "i" "s") "a.1.b"
            (Value.vstr "v") (some 7) [] (some "x") true).1.changed_attributes
            (join_trimmed_strings '.' (splitDot "a.1.b") i) =
          aget (mk_block "n" [] "p" "t" [] "i" "s").changed_attributes
            (join_trimmed_strings '.' (splitDot "a.1.b") i))
      ∧ aget (update_attribute (mk_block "n" [] "p" "t" [] "i" "s") "a.1.b"
          (Value.vstr "v") (some 7) [] (some "x") true).1.changed_attributes
          (join_trimmed_strings '.' (splitDot "a.1.b") 1) =
        aget (mk_block "n" [] "p" "t" [] "i" "s").changed_attributes
          (join_trimmed_strings '.' (splitDot "a.1.b") 1)
      ∧ (∀ i, i ≤ 1 →
          aget (update_attribute (mk_block "n" [] "p" "t" [] "i" "s") "a.1.b"
            (Value.vstr "v") (some 7) [] (some "x") true).1.attributes
            (join_trimmed_strings '.' (splitDot "a.1.b") i) =
          some (iterWrap (splitDot "a.1.b") (Value.vstr "v") i))) :=
  ⟨⟨by decide, by decide, by decide, by decide⟩,
   c3_transform_step_early_stop (mk_block "n" [] "p" "t" [] "i" "s") "a.1.b" (Value.vstr "v")
     (some 7) [] (some "x") 1 (by decide) (by decide) (by decide) (by decide)⟩

end Checkov
